import Mathlib

/-!
Verification of the authcrypt JWE-like multi-recipient envelope
(package `pkg/didcomm/crypto/jwe/authcrypt`).

The repository snapshot contains the package's test file
(`authcrypt_test.go`) but not `authcrypt.go` itself, so the envelope
operations (`New`, `Encrypt`, `Decrypt`) are modelled from the
specification: the wire structure, validation order, error messages and
the panic behavior follow spec sections 3, 4, 6, 7 and the behavior the
test file pins (error strings, the content-nonce panic, the
`bad nonce size` check at the shared-key step).  The elliptic-curve
Diffie-Hellman agreement and the ChaCha20-Poly1305-family AEAD are
delegated primitives in the source (golang.org/x/crypto); they are
modelled here as idealized executable primitives that satisfy the
functional contracts the spec relies on: commutativity of the key
agreement, and authenticated encryption that decrypts correctly under
the sealing key/nonce and rejects any altered key, nonce, associated
data, ciphertext or tag.
-/

/-- Byte strings are lists of naturals; a well-formed byte has value `< 256`. -/
abbrev Bytes := List Nat

/-- All entries of the list are genuine bytes (`< 256`). -/
def IsBytes (l : Bytes) : Prop := ∀ b ∈ l, b < 256

instance : DecidablePred IsBytes := fun l =>
  inferInstanceAs (Decidable (∀ b ∈ l, b < 256))

/-- Injective numeric packing of a byte list (base-257 digits `b+1`, little endian). -/
def toN : Bytes → Nat
  | [] => 0
  | b :: t => (b + 1) + 257 * toN t

/-- Fuel-driven little-endian base-256 digit expansion (structural recursion so
that closed terms reduce in the kernel). -/
def toB256Go : Nat → Nat → Bytes
  | 0, _ => []
  | f + 1, n => if n = 0 then [] else n % 256 :: toB256Go f (n / 256)

/-- Little-endian base-256 digits of a natural number, canonical form. -/
def toB256 (n : Nat) : Bytes := toB256Go n n

theorem toN_inj : ∀ {a b : Bytes}, IsBytes a → IsBytes b → toN a = toN b → a = b := by
  intro a
  induction a with
  | nil =>
    intro b _ hb h
    cases b with
    | nil => rfl
    | cons x t =>
      exfalso
      simp [toN] at h
      omega
  | cons x t ih =>
    intro b ha hb h
    cases b with
    | nil =>
      exfalso
      simp [toN] at h
    | cons y s =>
      simp only [toN] at h
      have hx : x < 256 := ha x (by simp)
      have hy : y < 256 := hb y (by simp)
      have h1 : x = y := by omega
      have h2 : toN t = toN s := by omega
      have ht : t = s :=
        ih (fun b hb2 => ha b (by simp [hb2])) (fun b hb2 => hb b (by simp [hb2])) h2
      rw [h1, ht]

theorem toB256Go_fuel : ∀ (f1 f2 n : Nat), n ≤ f1 → n ≤ f2 →
    toB256Go f1 n = toB256Go f2 n := by
  intro f1
  induction f1 with
  | zero =>
    intro f2 n h1 _
    have : n = 0 := by omega
    subst this
    cases f2 <;> simp [toB256Go]
  | succ f ih =>
    intro f2 n h1 h2
    cases f2 with
    | zero =>
      have : n = 0 := by omega
      subst this
      simp [toB256Go]
    | succ g =>
      by_cases hn : n = 0
      · subst hn; simp [toB256Go]
      · simp only [toB256Go, if_neg hn]
        have hd : n / 256 < n := Nat.div_lt_self (by omega) (by omega)
        rw [ih g (n / 256) (by omega) (by omega)]

theorem toB256_unfold (n : Nat) :
    toB256 n = if n = 0 then [] else n % 256 :: toB256 (n / 256) := by
  by_cases hn : n = 0
  · subst hn; simp [toB256, toB256Go]
  · obtain ⟨f, hf⟩ : ∃ f, n = f + 1 := ⟨n - 1, by omega⟩
    subst hf
    simp only [toB256, toB256Go, if_neg hn]
    have hd : (f + 1) / 256 ≤ f := by
      have : (f + 1) / 256 < f + 1 := Nat.div_lt_self (by omega) (by omega)
      omega
    rw [toB256Go_fuel f ((f + 1) / 256) ((f + 1) / 256) hd (Nat.le_refl _)]

theorem toB256_inj : ∀ {a b : Nat}, toB256 a = toB256 b → a = b := by
  intro a
  induction a using Nat.strong_induction_on with
  | _ a ih =>
    intro b h
    rw [toB256_unfold a, toB256_unfold b] at h
    by_cases ha : a = 0
    · subst ha
      simp only [if_pos rfl] at h
      by_cases hb : b = 0
      · omega
      · simp [hb] at h
    · by_cases hb : b = 0
      · subst hb; simp [ha] at h
      · simp only [if_neg ha, if_neg hb, List.cons.injEq] at h
        obtain ⟨h1, h2⟩ := h
        have hda : a / 256 < a := Nat.div_lt_self (by omega) (by omega)
        have := ih (a / 256) hda h2
        omega

theorem toB256_isBytes (n : Nat) : IsBytes (toB256 n) := by
  induction n using Nat.strong_induction_on with
  | _ n ih =>
    rw [toB256_unfold]
    by_cases hn : n = 0
    · simp [hn, IsBytes]
    · simp only [if_neg hn]
      intro b hb
      rcases List.mem_cons.mp hb with h | h
      · subst h; exact Nat.mod_lt _ (by omega)
      · exact ih (n / 256) (Nat.div_lt_self (by omega) (by omega)) b h

/-- The unpadded URL-safe base64 alphabet (spec section 6: all wire fields use
unpadded URL-safe base64). -/
def b64Table : List Char :=
  ['A','B','C','D','E','F','G','H','I','J','K','L','M','N','O','P','Q','R','S','T',
   'U','V','W','X','Y','Z','a','b','c','d','e','f','g','h','i','j','k','l','m','n',
   'o','p','q','r','s','t','u','v','w','x','y','z','0','1','2','3','4','5','6','7',
   '8','9','-','_']

/-- Character of a 6-bit value. -/
def b64CharOf (v : Nat) : Char := b64Table.getD v 'A'

/-- Value of a base64url character, `none` when the character is not in the
alphabet (arithmetic form of the table lookup). -/
def b64ValOf (c : Char) : Option Nat :=
  if 65 ≤ c.toNat ∧ c.toNat ≤ 90 then some (c.toNat - 65)
  else if 97 ≤ c.toNat ∧ c.toNat ≤ 122 then some (c.toNat - 71)
  else if 48 ≤ c.toNat ∧ c.toNat ≤ 57 then some (c.toNat + 4)
  else if c = '-' then some 62
  else if c = '_' then some 63
  else none

theorem charToNat_inj {a b : Char} (h : a.toNat = b.toNat) : a = b := by
  cases a with
  | mk va hva =>
    cases b with
    | mk vb hvb =>
      simp only [Char.toNat] at h
      have hv : va = vb := by
        cases va; cases vb
        congr 1
        exact BitVec.eq_of_toNat_eq h
      subst hv
      rfl

theorem b64ValOf_b64CharOf : ∀ v, v < 64 → b64ValOf (b64CharOf v) = some v := by
  decide

theorem b64CharOf_toNat : ∀ v, v < 64 → (b64CharOf v).toNat =
    (if v < 26 then v + 65 else if v < 52 then v + 71
     else if v < 62 then v - 4 else if v = 62 then 45 else 95) := by
  decide

theorem b64ValOf_lt {c : Char} {v : Nat} (h : b64ValOf c = some v) : v < 64 := by
  unfold b64ValOf at h
  split_ifs at h with h1 h2 h3 h4 h5
  · injection h with he; omega
  · injection h with he; omega
  · injection h with he; omega
  · injection h with he; omega
  · injection h with he; omega

theorem b64CharOf_of_valOf {c : Char} {v : Nat} (h : b64ValOf c = some v) :
    b64CharOf v = c := by
  have hlt := b64ValOf_lt h
  have htab := b64CharOf_toNat v hlt
  unfold b64ValOf at h
  split_ifs at h with h1 h2 h3 h4 h5
  · injection h with he
    apply charToNat_inj
    rw [htab]
    split_ifs <;> omega
  · injection h with he
    apply charToNat_inj
    rw [htab]
    split_ifs <;> omega
  · injection h with he
    apply charToNat_inj
    rw [htab]
    split_ifs <;> omega
  · injection h with he
    subst h4
    have hv : v = 62 := by omega
    subst hv
    decide
  · injection h with he
    subst h5
    have hv : v = 63 := by omega
    subst hv
    decide

/-- Encode a byte list into base64url 6-bit values (unpadded). -/
def b64e : Bytes → List Nat
  | [] => []
  | [b1] => [b1 / 4, b1 % 4 * 16]
  | [b1, b2] => [b1 / 4, b1 % 4 * 16 + b2 / 16, b2 % 16 * 4]
  | b1 :: b2 :: b3 :: t =>
      (b1 / 4) :: (b1 % 4 * 16 + b2 / 16) :: (b2 % 16 * 4 + b3 / 64) :: (b3 % 64) :: b64e t

/-- Decode base64url 6-bit values into bytes; rejects impossible lengths and
nonzero trailing bits. -/
def b64d : List Nat → Option Bytes
  | [] => some []
  | [_] => none
  | [c1, c2] => if c2 % 16 = 0 then some [c1 * 4 + c2 / 16] else none
  | [c1, c2, c3] => if c3 % 4 = 0 then some [c1 * 4 + c2 / 16, c2 % 16 * 16 + c3 / 4] else none
  | c1 :: c2 :: c3 :: c4 :: t =>
      (b64d t).map
        (fun r => (c1 * 4 + c2 / 16) :: (c2 % 16 * 16 + c3 / 4) :: (c3 % 4 * 64 + c4) :: r)

theorem b64e_lt {b : Bytes} (hb : IsBytes b) : ∀ v ∈ b64e b, v < 64 := by
  induction b using b64e.induct with
  | case1 => simp [b64e]
  | case2 b1 =>
    have h1 : b1 < 256 := hb b1 (by simp)
    simp [b64e]
    omega
  | case3 b1 b2 =>
    have h1 : b1 < 256 := hb b1 (by simp)
    have h2 : b2 < 256 := hb b2 (by simp)
    simp [b64e]
    omega
  | case4 b1 b2 b3 t ih =>
    have h1 : b1 < 256 := hb b1 (by simp)
    have h2 : b2 < 256 := hb b2 (by simp)
    have h3 : b3 < 256 := hb b3 (by simp)
    have ht : IsBytes t := fun x hx => hb x (by simp [hx])
    intro v hv
    simp only [b64e, List.mem_cons] at hv
    rcases hv with h | h | h | h | h
    all_goals first
    | omega
    | (subst h; omega)
    | exact ih ht v h

theorem b64d_b64e {b : Bytes} (hb : IsBytes b) : b64d (b64e b) = some b := by
  induction b using b64e.induct with
  | case1 => simp [b64e, b64d]
  | case2 b1 =>
    have h1 : b1 < 256 := hb b1 (by simp)
    simp [b64e, b64d]
    omega
  | case3 b1 b2 =>
    have h1 : b1 < 256 := hb b1 (by simp)
    have h2 : b2 < 256 := hb b2 (by simp)
    simp [b64e, b64d]
    constructor
    · omega
    · omega
  | case4 b1 b2 b3 t ih =>
    have h1 : b1 < 256 := hb b1 (by simp)
    have h2 : b2 < 256 := hb b2 (by simp)
    have h3 : b3 < 256 := hb b3 (by simp)
    have ht : IsBytes t := fun x hx => hb x (by simp [hx])
    simp only [b64e, b64d, ih ht, Option.map_some]
    congr 1
    have e1 : (b1 / 4) * 4 + (b1 % 4 * 16 + b2 / 16) / 16 = b1 := by omega
    have e2 : (b1 % 4 * 16 + b2 / 16) % 16 * 16 + (b2 % 16 * 4 + b3 / 64) / 4 = b2 := by omega
    have e3 : (b2 % 16 * 4 + b3 / 64) % 4 * 64 + b3 % 64 = b3 := by omega
    rw [e1, e2, e3]
    simp

theorem b64d_strict : ∀ {l : List Nat} {b : Bytes}, (∀ v ∈ l, v < 64) →
    b64d l = some b → l = b64e b ∧ IsBytes b := by
  intro l
  induction l using b64d.induct with
  | case1 =>
    intro b _ h
    simp [b64d] at h
    subst h
    simp [b64e, IsBytes]
  | case2 c1 =>
    intro b _ h
    simp [b64d] at h
  | case3 c1 c2 hz =>
    intro b hl h
    have hc1 : c1 < 64 := hl c1 (by simp)
    have hc2 : c2 < 64 := hl c2 (by simp)
    simp only [b64d, if_pos hz] at h
    have hb : b = [c1 * 4 + c2 / 16] := by
      injection h with h2
      exact h2.symm
    subst hb
    refine ⟨?_, ?_⟩
    · simp [b64e]
      constructor <;> omega
    · intro x hx
      simp at hx
      omega
  | case4 c1 c2 hz =>
    intro b hl h
    simp only [b64d, if_neg hz] at h
    exact absurd h (by simp)
  | case5 c1 c2 c3 hz =>
    intro b hl h
    have hc1 : c1 < 64 := hl c1 (by simp)
    have hc2 : c2 < 64 := hl c2 (by simp)
    have hc3 : c3 < 64 := hl c3 (by simp)
    simp only [b64d, if_pos hz] at h
    have hb : b = [c1 * 4 + c2 / 16, c2 % 16 * 16 + c3 / 4] := by
      injection h with h2
      exact h2.symm
    subst hb
    refine ⟨?_, ?_⟩
    · simp [b64e]
      refine ⟨by omega, by omega, by omega⟩
    · intro x hx
      simp at hx
      rcases hx with hx | hx <;> omega
  | case6 c1 c2 c3 hz =>
    intro b hl h
    simp only [b64d, if_neg hz] at h
    exact absurd h (by simp)
  | case7 c1 c2 c3 c4 t ih =>
    intro b hl h
    have hc1 : c1 < 64 := hl c1 (by simp)
    have hc2 : c2 < 64 := hl c2 (by simp)
    have hc3 : c3 < 64 := hl c3 (by simp)
    have hc4 : c4 < 64 := hl c4 (by simp)
    have hlt : ∀ v ∈ t, v < 64 := fun v hv => hl v (by simp [hv])
    simp only [b64d] at h
    cases hr : b64d t with
    | none => rw [hr] at h; exact absurd h (by simp)
    | some r =>
      rw [hr] at h
      simp only [Option.map_some'] at h
      have hb : b = (c1 * 4 + c2 / 16) :: (c2 % 16 * 16 + c3 / 4) :: (c3 % 4 * 64 + c4) :: r := by
        injection h with h2
        exact h2.symm
      subst hb
      obtain ⟨ht, hrb⟩ := ih hlt hr
      refine ⟨?_, ?_⟩
      · simp only [b64e, ← ht]
        have e1 : (c1 * 4 + c2 / 16) / 4 = c1 := by omega
        have e2 : (c1 * 4 + c2 / 16) % 4 * 16 + (c2 % 16 * 16 + c3 / 4) / 16 = c2 := by omega
        have e3 : (c2 % 16 * 16 + c3 / 4) % 16 * 4 + (c3 % 4 * 64 + c4) / 64 = c3 := by omega
        have e4 : (c3 % 4 * 64 + c4) % 64 = c4 := by omega
        rw [e1, e2, e3, e4]
      · intro x hx
        simp at hx
        rcases hx with hx | hx | hx | hx
        · omega
        · omega
        · omega
        · exact hrb x hx

/-- Number of base64url characters used to encode `n` bytes. -/
def b64len (n : Nat) : Nat :=
  n / 3 * 4 + (if n % 3 = 0 then 0 else if n % 3 = 1 then 2 else 3)

theorem b64len_inj {m n : Nat} (h : b64len m = b64len n) : m = n := by
  unfold b64len at h
  split_ifs at h <;> omega

theorem b64e_length (b : Bytes) : (b64e b).length = b64len b.length := by
  induction b using b64e.induct with
  | case1 => simp [b64e, b64len]
  | case2 b1 => simp [b64e, b64len]
  | case3 b1 b2 => simp [b64e, b64len]
  | case4 b1 b2 b3 t ih =>
    simp only [b64e, List.length_cons, ih]
    unfold b64len
    have h3 : (t.length + 3) % 3 = t.length % 3 := by omega
    have h4 : (t.length + 3) / 3 = t.length / 3 + 1 := by omega
    simp only [List.length_cons, h3, h4]
    split_ifs <;> omega

/-- Index of the first character that is not in the base64url alphabet. -/
def firstBadIdx : List Char → Nat → Option Nat
  | [], _ => none
  | c :: t, i => if (b64ValOf c).isSome then firstBadIdx t (i + 1) else some i

/-- The 6-bit values of a list of alphabet characters. -/
def charVals : List Char → List Nat
  | [] => []
  | c :: t => (b64ValOf c).getD 0 :: charVals t

/-- Modelled from the spec: unpadded URL-safe base64 decoding of a wire field,
with the Go-style `illegal base64 data at input byte N` error message. -/
def b64decode (s : String) : Except String Bytes :=
  match firstBadIdx s.data 0 with
  | some i => .error ("illegal base64 data at input byte " ++ toString i)
  | none =>
    match b64d (charVals s.data) with
    | some b => .ok b
    | none => .error ("illegal base64 data at input byte " ++ toString (s.data.length - 1))

/-- Modelled from the spec: unpadded URL-safe base64 encoding of a byte list. -/
def b64encodeStr (b : Bytes) : String := ⟨(b64e b).map b64CharOf⟩

theorem firstBadIdx_map_none {vals : List Nat} (h : ∀ v ∈ vals, v < 64) :
    ∀ i, firstBadIdx (vals.map b64CharOf) i = none := by
  induction vals with
  | nil => intro i; simp [firstBadIdx]
  | cons v t ih =>
    intro i
    have hv : v < 64 := h v (by simp)
    simp only [List.map_cons, firstBadIdx, b64ValOf_b64CharOf v hv, Option.isSome_some,
      if_pos]
    exact ih (fun x hx => h x (by simp [hx])) (i + 1)

theorem charVals_map {vals : List Nat} (h : ∀ v ∈ vals, v < 64) :
    charVals (vals.map b64CharOf) = vals := by
  induction vals with
  | nil => simp [charVals]
  | cons v t ih =>
    have hv : v < 64 := h v (by simp)
    simp only [List.map_cons, charVals, b64ValOf_b64CharOf v hv, Option.getD_some]
    rw [ih (fun x hx => h x (by simp [hx]))]

theorem b64decode_encode {b : Bytes} (hb : IsBytes b) :
    b64decode (b64encodeStr b) = .ok b := by
  have hlt := b64e_lt hb
  have hdata : (b64encodeStr b).data = (b64e b).map b64CharOf := rfl
  unfold b64decode
  rw [hdata, firstBadIdx_map_none hlt 0, charVals_map hlt, b64d_b64e hb]

theorem firstBadIdx_none_isSome : ∀ {cs : List Char} {i : Nat},
    firstBadIdx cs i = none → ∀ c ∈ cs, (b64ValOf c).isSome := by
  intro cs
  induction cs with
  | nil => intro i _ c hc; simp at hc
  | cons d t ih =>
    intro i h c hc
    simp only [firstBadIdx] at h
    by_cases hd : (b64ValOf d).isSome
    · rw [if_pos hd] at h
      rcases List.mem_cons.mp hc with h2 | h2
      · subst h2; exact hd
      · exact ih h c h2
    · rw [if_neg hd] at h
      exact absurd h (by simp)

theorem charVals_lt {cs : List Char} (h : ∀ c ∈ cs, (b64ValOf c).isSome) :
    ∀ v ∈ charVals cs, v < 64 := by
  induction cs with
  | nil => simp [charVals]
  | cons d t ih =>
    intro v hv
    simp only [charVals, List.mem_cons] at hv
    rcases hv with hv | hv
    · have hd := h d (by simp)
      obtain ⟨w, hw⟩ := Option.isSome_iff_exists.mp hd
      subst hv
      rw [hw]
      simpa using b64ValOf_lt hw
    · exact ih (fun c hc => h c (by simp [hc])) v hv

theorem chars_eq_map {cs : List Char} (h : ∀ c ∈ cs, (b64ValOf c).isSome) :
    cs = (charVals cs).map b64CharOf := by
  induction cs with
  | nil => simp [charVals]
  | cons d t ih =>
    have hd := h d (by simp)
    obtain ⟨w, hw⟩ := Option.isSome_iff_exists.mp hd
    simp only [charVals, List.map_cons, hw, Option.getD_some]
    rw [b64CharOf_of_valOf hw]
    exact congrArg _ (ih (fun c hc => h c (by simp [hc])))

theorem b64decode_strict {s : String} {b : Bytes} (h : b64decode s = .ok b) :
    s = b64encodeStr b ∧ IsBytes b := by
  unfold b64decode at h
  cases hfb : firstBadIdx s.data 0 with
  | some i => rw [hfb] at h; exact absurd h (by simp)
  | none =>
    rw [hfb] at h
    cases hd : b64d (charVals s.data) with
    | none => rw [hd] at h; exact absurd h (by simp)
    | some r =>
      rw [hd] at h
      have hr : r = b := by injection h
      subst hr
      have hsome := firstBadIdx_none_isSome hfb
      have hvals := charVals_lt hsome
      obtain ⟨hcv, hib⟩ := b64d_strict hvals hd
      refine ⟨?_, hib⟩
      have hchars : s.data = (b64e r).map b64CharOf := by
        rw [← hcv]
        exact chars_eq_map hsome
      show s = ⟨(b64e r).map b64CharOf⟩
      exact congrArg String.mk hchars

theorem b64decode_ok_inj {s1 s2 : String} {b : Bytes}
    (h1 : b64decode s1 = .ok b) (h2 : b64decode s2 = .ok b) : s1 = s2 := by
  rw [(b64decode_strict h1).1, (b64decode_strict h2).1]

theorem b64decode_error_shape {s : String} {m : String}
    (h : b64decode s = .error m) :
    ∃ k : Nat, m = "illegal base64 data at input byte " ++ toString k := by
  unfold b64decode at h
  cases hfb : firstBadIdx s.data 0 with
  | some i =>
    rw [hfb] at h
    exact ⟨i, by injection h with h2; exact h2.symm⟩
  | none =>
    rw [hfb] at h
    cases hd : b64d (charVals s.data) with
    | none =>
      rw [hd] at h
      exact ⟨s.data.length - 1, by injection h with h2; exact h2.symm⟩
    | some r => rw [hd] at h; exact absurd h (by simp)

theorem b64encodeStr_length (b : Bytes) :
    (b64encodeStr b).length = b64len b.length := by
  show ((b64e b).map b64CharOf).length = _
  rw [List.length_map, b64e_length]

theorem b64decode_ok_length {s : String} {b : Bytes} (h : b64decode s = .ok b) :
    s.length = b64len b.length := by
  rw [(b64decode_strict h).1, b64encodeStr_length]

/-- Modelled from the spec: the public half of an idealized 32-byte
curve key; the model identifies the public key with the scalar so that the
Diffie-Hellman agreement below commutes, which is the only property of the
curve the envelope relies on (spec section 2, component 1). -/
def pubOf (priv : Bytes) : Bytes := priv

/-- Modelled from the spec: idealized X25519-style Diffie-Hellman shared
secret of a private scalar and a public key (pointwise bytewise combination;
commutative on well-formed pairs and cancellative, which is all the envelope
uses). -/
def dh (priv pub : Bytes) : Bytes := List.zipWith (fun x y => (x + y) % 256) priv pub

theorem dh_comm (a b : Bytes) : dh a (pubOf b) = dh b (pubOf a) := by
  unfold dh pubOf
  induction a generalizing b with
  | nil => cases b <;> simp
  | cons x t ih =>
    cases b with
    | nil => simp
    | cons y s =>
      simp only [List.zipWith]
      rw [Nat.add_comm x y]
      exact congrArg _ (ih s)

theorem dh_isBytes (a b : Bytes) : IsBytes (dh a b) := by
  unfold dh
  induction a generalizing b with
  | nil => simp [IsBytes]
  | cons x t ih =>
    cases b with
    | nil => simp [IsBytes]
    | cons y s =>
      intro v hv
      simp only [List.zipWith, List.mem_cons] at hv
      rcases hv with hv | hv
      · subst hv; exact Nat.mod_lt _ (by omega)
      · exact ih s v hv

theorem dh_length (a b : Bytes) : (dh a b).length = min a.length b.length := by
  simp [dh]

theorem dh_cancel_left : ∀ {p a b : Bytes}, a.length = b.length → IsBytes a → IsBytes b →
    dh p a = dh p b → p.length ≥ a.length → a = b := by
  intro p
  induction p with
  | nil =>
    intro a b hlen _ _ _ hge
    simp only [List.length_nil, Nat.le_zero] at hge
    have : a.length = 0 := by omega
    have hb0 : b.length = 0 := by omega
    rw [List.length_eq_zero] at this hb0
    rw [this, hb0]
  | cons x t ih =>
    intro a b hlen ha hb h hge
    cases a with
    | nil =>
      have : b.length = 0 := by simpa using hlen.symm
      rw [List.length_eq_zero] at this
      rw [this]
    | cons y s =>
      cases b with
      | nil => simp at hlen
      | cons z r =>
        simp only [dh, List.zipWith, List.cons.injEq] at h
        obtain ⟨h1, h2⟩ := h
        have hy : y < 256 := ha y (by simp)
        have hz : z < 256 := hb z (by simp)
        have hyz : y = z := by omega
        have hsr : s = r := by
          apply ih (by simpa using hlen) (fun v hv => ha v (by simp [hv]))
            (fun v hv => hb v (by simp [hv])) h2
          simpa using hge
        rw [hyz, hsr]

theorem dh_cancel_right {x y p : Bytes} (hlen : x.length = y.length)
    (hx : IsBytes x) (hy : IsBytes y) (h : dh x p = dh y p)
    (hge : p.length ≥ x.length) : x = y := by
  have h2 : dh p (pubOf x) = dh p (pubOf y) := by
    rw [dh_comm p x, dh_comm p y]
    unfold pubOf
    exact h
  exact dh_cancel_left hlen hx hy h2 hge

/-- Numeric packing of the AEAD authentication input (key, nonce, associated
data, ciphertext). -/
def pack4 (key nonce ad ct : Bytes) : Nat :=
  Nat.pair (toN key) (Nat.pair (toN nonce) (Nat.pair (toN ad) (toN ct)))

theorem pack4_inj {k n a c k2 n2 a2 c2 : Bytes}
    (hk : IsBytes k) (hn : IsBytes n) (ha : IsBytes a) (hc : IsBytes c)
    (hk2 : IsBytes k2) (hn2 : IsBytes n2) (ha2 : IsBytes a2) (hc2 : IsBytes c2)
    (h : pack4 k n a c = pack4 k2 n2 a2 c2) :
    k = k2 ∧ n = n2 ∧ a = a2 ∧ c = c2 := by
  unfold pack4 at h
  have h1 := congrArg Nat.unpair h
  rw [Nat.unpair_pair, Nat.unpair_pair] at h1
  have hkk : toN k = toN k2 := congrArg Prod.fst h1
  have h2 := congrArg Nat.unpair (congrArg Prod.snd h1)
  rw [Nat.unpair_pair, Nat.unpair_pair] at h2
  have hnn : toN n = toN n2 := congrArg Prod.fst h2
  have h3 := congrArg Nat.unpair (congrArg Prod.snd h2)
  rw [Nat.unpair_pair, Nat.unpair_pair] at h3
  have haa : toN a = toN a2 := congrArg Prod.fst h3
  have hcc : toN c = toN c2 := congrArg Prod.snd h3
  exact ⟨toN_inj hk hk2 hkk, toN_inj hn hn2 hnn, toN_inj ha ha2 haa, toN_inj hc hc2 hcc⟩

/-- Modelled from the spec: the authentication tag of the idealized
ChaCha20-Poly1305-family AEAD, binding key, nonce, associated data and
ciphertext (spec section 2, component 2; glossary AEAD). -/
def macBytes (key nonce ad ct : Bytes) : Bytes := toB256 (pack4 key nonce ad ct)

theorem macBytes_inj {k n a c k2 n2 a2 c2 : Bytes}
    (hk : IsBytes k) (hn : IsBytes n) (ha : IsBytes a) (hc : IsBytes c)
    (hk2 : IsBytes k2) (hn2 : IsBytes n2) (ha2 : IsBytes a2) (hc2 : IsBytes c2)
    (h : macBytes k n a c = macBytes k2 n2 a2 c2) :
    k = k2 ∧ n = n2 ∧ a = a2 ∧ c = c2 :=
  pack4_inj hk hn ha hc hk2 hn2 ha2 hc2 (toB256_inj h)

/-- Keystream byte `i` of the idealized stream cipher under `key`/`nonce`. -/
def ksAt (key nonce : Bytes) (i : Nat) : Nat := (toN key + toN nonce + i) % 256

/-- Encrypt bytes starting at keystream offset `i`. -/
def encGo (key nonce : Bytes) : Nat → Bytes → Bytes
  | _, [] => []
  | i, b :: t => (b + ksAt key nonce i) % 256 :: encGo key nonce (i + 1) t

/-- Decrypt bytes starting at keystream offset `i`. -/
def decGo (key nonce : Bytes) : Nat → Bytes → Bytes
  | _, [] => []
  | i, c :: t => (c + 256 - ksAt key nonce i) % 256 :: decGo key nonce (i + 1) t

theorem decGo_encGo {key nonce : Bytes} : ∀ (i : Nat) {pt : Bytes}, IsBytes pt →
    decGo key nonce i (encGo key nonce i pt) = pt := by
  intro i pt
  induction pt generalizing i with
  | nil => intro _; simp [encGo, decGo]
  | cons b t ih =>
    intro hpt
    have hb : b < 256 := hpt b (by simp)
    simp only [encGo, decGo, List.cons.injEq]
    refine ⟨?_, ih (i + 1) (fun v hv => hpt v (by simp [hv]))⟩
    have hks : ksAt key nonce i < 256 := Nat.mod_lt _ (by omega)
    omega

theorem encGo_isBytes (key nonce : Bytes) : ∀ (i : Nat) (pt : Bytes),
    IsBytes (encGo key nonce i pt) := by
  intro i pt
  induction pt generalizing i with
  | nil => simp [encGo, IsBytes]
  | cons b t ih =>
    intro v hv
    simp only [encGo, List.mem_cons] at hv
    rcases hv with hv | hv
    · subst hv; exact Nat.mod_lt _ (by omega)
    · exact ih (i + 1) v hv

theorem encGo_length (key nonce : Bytes) : ∀ (i : Nat) (pt : Bytes),
    (encGo key nonce i pt).length = pt.length := by
  intro i pt
  induction pt generalizing i with
  | nil => simp [encGo]
  | cons b t ih => simp [encGo, ih]

theorem encGo_inj {key nonce : Bytes} : ∀ (i : Nat) {p q : Bytes}, IsBytes p → IsBytes q →
    encGo key nonce i p = encGo key nonce i q → p = q := by
  intro i p q hp hq h
  have := congrArg (decGo key nonce i) h
  rwa [decGo_encGo i hp, decGo_encGo i hq] at this

/-- Ciphertext of the idealized AEAD seal. -/
def sealCT (key nonce pt : Bytes) : Bytes := encGo key nonce 0 pt

/-- Tag of the idealized AEAD seal. -/
def sealTag (key nonce ad pt : Bytes) : Bytes := macBytes key nonce ad (sealCT key nonce pt)

/-- Result of opening an AEAD sealed box: plaintext, an authentication
failure, or the unrecoverable abort the underlying Go cipher raises when the
nonce length is wrong. -/
inductive OpenResult where
  | ok (pt : Bytes)
  | authFail
  | panicked (msg : String)
  deriving DecidableEq, Repr

/-- Modelled from the spec: opening a ChaCha20-Poly1305-family box.  A nonce
of the wrong length is a precondition violation of the underlying cipher and
aborts (spec sections 7 and 9: the panic case); a tag mismatch is an
authentication failure. -/
def chachaOpen (ns : Nat) (key nonce ad ct tag : Bytes) : OpenResult :=
  if nonce.length ≠ ns then .panicked "chacha20poly1305: bad nonce length passed to Open"
  else if tag = macBytes key nonce ad ct then .ok (decGo key nonce 0 ct)
  else .authFail

theorem chachaOpen_seal {ns : Nat} {key nonce ad pt : Bytes}
    (hn : nonce.length = ns) (hpt : IsBytes pt) :
    chachaOpen ns key nonce ad (sealCT key nonce pt) (sealTag key nonce ad pt) = .ok pt := by
  unfold chachaOpen sealTag
  rw [if_neg (by omega), if_pos rfl]
  unfold sealCT
  rw [decGo_encGo 0 hpt]

theorem chachaOpen_authFail {ns : Nat} {key nonce ad ct tag : Bytes}
    (hn : nonce.length = ns) (hne : tag ≠ macBytes key nonce ad ct) :
    chachaOpen ns key nonce ad ct tag = .authFail := by
  unfold chachaOpen
  rw [if_neg (by omega), if_neg hne]

theorem chachaOpen_badNonce {ns : Nat} {key nonce ad ct tag : Bytes}
    (hn : nonce.length ≠ ns) :
    chachaOpen ns key nonce ad ct tag =
      .panicked "chacha20poly1305: bad nonce length passed to Open" := by
  unfold chachaOpen
  rw [if_pos hn]

/-- Split a character list at every dot, the JWE compact-serialization
separator used by the hidden-sender sub-envelope. -/
def splitDots : List Char → List (List Char)
  | [] => [[]]
  | c :: t =>
    match splitDots t with
    | [] => []
    | h :: r => if c = '.' then [] :: h :: r else (c :: h) :: r

/-- Join character lists with dots (left inverse of `splitDots`). -/
def joinDots : List (List Char) → List Char
  | [] => []
  | [h] => h
  | h :: r => h ++ '.' :: joinDots r

theorem splitDots_ne_nil : ∀ (cs : List Char), splitDots cs ≠ [] := by
  intro cs
  induction cs with
  | nil => simp [splitDots]
  | cons c t ih =>
    simp only [splitDots]
    cases h : splitDots t with
    | nil => exact absurd h ih
    | cons hd r =>
      by_cases hc : c = '.'
      · simp [hc]
      · simp [hc]

theorem joinDots_splitDots : ∀ (cs : List Char), joinDots (splitDots cs) = cs := by
  intro cs
  induction cs with
  | nil => simp [splitDots, joinDots]
  | cons c t ih =>
    simp only [splitDots]
    cases h : splitDots t with
    | nil => exact absurd h (splitDots_ne_nil t)
    | cons hd r =>
      rw [h] at ih
      by_cases hc : c = '.'
      · subst hc
        simp only [if_pos rfl]
        cases r with
        | nil =>
          simp only [joinDots] at ih ⊢
          rw [ih]
          simp
        | cons r1 rt =>
          simp only [joinDots] at ih ⊢
          simp only [List.nil_append]
          rw [ih]
      · simp only [if_neg hc]
        cases r with
        | nil =>
          simp only [joinDots] at ih ⊢
          rw [ih]
        | cons r1 rt =>
          simp only [joinDots] at ih ⊢
          simp only [List.cons_append]
          rw [ih]

theorem splitDots_nodot {cs : List Char} (h : ∀ c ∈ cs, c ≠ '.') :
    splitDots cs = [cs] := by
  induction cs with
  | nil => simp [splitDots]
  | cons c t ih =>
    have hc : c ≠ '.' := h c (by simp)
    simp only [splitDots, ih (fun d hd => h d (by simp [hd])), if_neg hc]

theorem splitDots_append_dot {a : List Char} (ha : ∀ c ∈ a, c ≠ '.') (r : List Char) :
    splitDots (a ++ '.' :: r) = a :: splitDots r := by
  induction a with
  | nil =>
    simp only [List.nil_append, splitDots]
    cases h : splitDots r with
    | nil => exact absurd h (splitDots_ne_nil r)
    | cons hd t => simp
  | cons c t ih =>
    have hc : c ≠ '.' := ha c (by simp)
    simp only [List.cons_append, splitDots, List.append_eq,
      ih (fun d hd => ha d (by simp [hd])), if_neg hc]

theorem b64Table_ne_dot : ∀ c ∈ b64Table, c ≠ '.' := by decide

theorem b64CharOf_ne_dot (v : Nat) : b64CharOf v ≠ '.' := by
  unfold b64CharOf
  rcases Nat.lt_or_ge v b64Table.length with h | h
  · have hmem : b64Table.getD v 'A' ∈ b64Table := by
      rw [List.getD_eq_getElem?_getD, List.getElem?_eq_getElem h]
      simp
    exact b64Table_ne_dot _ hmem
  · have hd : b64Table.getD v 'A' = 'A' := by
      rw [List.getD_eq_getElem?_getD, List.getElem?_eq_none h]
      rfl
    rw [hd]
    decide

theorem b64encodeStr_nodot (b : Bytes) : ∀ c ∈ (b64encodeStr b).data, c ≠ '.' := by
  intro c hc
  have : (b64encodeStr b).data = (b64e b).map b64CharOf := rfl
  rw [this] at hc
  obtain ⟨v, _, hv⟩ := List.mem_map.mp hc
  rw [← hv]
  exact b64CharOf_ne_dot v

/-- The hidden-sender sub-envelope (spec section 3, `RecipientHeaders.spk`):
the ephemeral public key, its own nonce and tag, and the ciphertext of the
sender's public key. -/
structure SPK where
  epk : Bytes
  iv : Bytes
  tag : Bytes
  ct : Bytes
  deriving DecidableEq, Repr

/-- Modelled from the spec: compact dot-separated serialization of the
hidden-sender sub-envelope. -/
def spkEncode (sp : SPK) : String :=
  b64encodeStr sp.epk ++ "." ++ b64encodeStr sp.iv ++ "." ++
    b64encodeStr sp.tag ++ "." ++ b64encodeStr sp.ct

/-- Decode the four compact-serialization parts of a hidden-sender
sub-envelope. -/
def spkParse4 (ns : Nat) (e i t c : String) : Option SPK :=
  match b64decode e, b64decode i, b64decode t, b64decode c with
  | .ok eb, .ok ib, .ok tb, .ok cb =>
    if eb.length = 32 ∧ ib.length = ns then some ⟨eb, ib, tb, cb⟩ else none
  | _, _, _, _ => none

/-- Modelled from the spec: parsing of the hidden-sender sub-envelope;
`none` is a malformed structure (`bad SPK format`), including an ephemeral
key or sub-envelope nonce of the wrong length (spec section 4, Decrypt
step 3: a sub-envelope that does not parse as expected is
`BadSenderKeyFormat`). -/
def spkParse (ns : Nat) (s : String) : Option SPK :=
  match splitDots s.data with
  | [e, i, t, c] => spkParse4 ns ⟨e⟩ ⟨i⟩ ⟨t⟩ ⟨c⟩
  | _ => none

theorem spkEncode_data (sp : SPK) :
    (spkEncode sp).data =
      (b64encodeStr sp.epk).data ++ '.' :: ((b64encodeStr sp.iv).data ++ '.' ::
        ((b64encodeStr sp.tag).data ++ '.' :: (b64encodeStr sp.ct).data)) := by
  unfold spkEncode
  simp [String.data_append]

theorem splitDots_spkEncode (sp : SPK) :
    splitDots (spkEncode sp).data =
      [(b64encodeStr sp.epk).data, (b64encodeStr sp.iv).data,
       (b64encodeStr sp.tag).data, (b64encodeStr sp.ct).data] := by
  rw [spkEncode_data]
  rw [splitDots_append_dot (b64encodeStr_nodot sp.epk)]
  rw [splitDots_append_dot (b64encodeStr_nodot sp.iv)]
  rw [splitDots_append_dot (b64encodeStr_nodot sp.tag)]
  rw [splitDots_nodot (b64encodeStr_nodot sp.ct)]

theorem spkParse_eq_parse4 (ns : Nat) (sp : SPK) :
    spkParse ns (spkEncode sp) =
      spkParse4 ns (b64encodeStr sp.epk) (b64encodeStr sp.iv)
        (b64encodeStr sp.tag) (b64encodeStr sp.ct) := by
  unfold spkParse
  rw [splitDots_spkEncode]

theorem spkParse_spkEncode {ns : Nat} {sp : SPK}
    (he : IsBytes sp.epk) (hi : IsBytes sp.iv) (ht : IsBytes sp.tag) (hc : IsBytes sp.ct)
    (hel : sp.epk.length = 32) (hil : sp.iv.length = ns) :
    spkParse ns (spkEncode sp) = some sp := by
  rw [spkParse_eq_parse4]
  unfold spkParse4
  rw [b64decode_encode he, b64decode_encode hi, b64decode_encode ht, b64decode_encode hc]
  simp [hel, hil]

theorem spkParse4_strict {ns : Nat} {e i t c : String} {sp : SPK}
    (h : spkParse4 ns e i t c = some sp) :
    b64decode e = .ok sp.epk ∧ b64decode i = .ok sp.iv ∧ b64decode t = .ok sp.tag ∧
      b64decode c = .ok sp.ct ∧ sp.epk.length = 32 ∧ sp.iv.length = ns := by
  unfold spkParse4 at h
  split at h
  · rename_i eb ib tb cb he hi ht hc
    split at h
    · rename_i hlen
      have hspv : sp = ⟨eb, ib, tb, cb⟩ := by
        injection h with h2
        exact h2.symm
      subst hspv
      exact ⟨he, hi, ht, hc, hlen.1, hlen.2⟩
    · exact absurd h (by simp)
  · exact absurd h (by simp)

theorem spkParse_strict {ns : Nat} {s : String} {sp : SPK}
    (h : spkParse ns s = some sp) :
    s = spkEncode sp ∧ IsBytes sp.epk ∧ IsBytes sp.iv ∧ IsBytes sp.tag ∧ IsBytes sp.ct ∧
      sp.epk.length = 32 ∧ sp.iv.length = ns := by
  unfold spkParse at h
  split at h
  · rename_i p1 p2 p3 p4 hsp
    obtain ⟨he, hi, ht, hc, hel, hil⟩ := spkParse4_strict h
    obtain ⟨hse, hbe⟩ := b64decode_strict he
    obtain ⟨hsi, hbi⟩ := b64decode_strict hi
    obtain ⟨hst, hbt⟩ := b64decode_strict ht
    obtain ⟨hsc, hbc⟩ := b64decode_strict hc
    refine ⟨?_, hbe, hbi, hbt, hbc, hel, hil⟩
    have hp1 : p1 = (b64encodeStr sp.epk).data := congrArg String.data hse
    have hp2 : p2 = (b64encodeStr sp.iv).data := congrArg String.data hsi
    have hp3 : p3 = (b64encodeStr sp.tag).data := congrArg String.data hst
    have hp4 : p4 = (b64encodeStr sp.ct).data := congrArg String.data hsc
    have hjoin := joinDots_splitDots s.data
    rw [hsp] at hjoin
    simp only [joinDots] at hjoin
    have hdata : s.data = (spkEncode sp).data := by
      rw [← hjoin, spkEncode_data]
      rw [hp1, hp2, hp3, hp4]
    have hs : s = ⟨s.data⟩ := rfl
    rw [hs, hdata]
  · exact absurd h (by simp)

/-- A caller-supplied curve keypair (source: `jwecrypto.KeyPair{Priv, Pub}`). -/
structure KeyPair where
  priv : Bytes
  pub : Bytes
  deriving DecidableEq, Repr

/-- Per-recipient wire headers (spec section 3, `RecipientHeaders`; JSON
fields `apu`, `iv`, `tag`, `kid`, `spk`). -/
structure RecipientHeaders where
  apu : String
  iv : String
  tag : String
  kid : String
  spk : String
  deriving DecidableEq, Repr

/-- One recipient block (spec section 3; JSON fields `encrypted_key`,
`header`). -/
structure Recipient where
  encryptedKey : String
  header : RecipientHeaders
  deriving DecidableEq, Repr

/-- The wire envelope (spec section 3; the Go field `Protected` is named
`protectedHeader` here because `protected` is reserved in Lean). -/
structure Envelope where
  protectedHeader : String
  recipients : List Recipient
  aad : String
  iv : String
  tag : String
  ciphertext : String
  deriving DecidableEq, Repr

/-- The crypter: content-cipher algorithm name and nonce size fixed at
construction (the Go struct exposes `nonceSize` as a mutable field; record
update models its mutation). -/
structure Crypter where
  alg : String
  nonceSize : Nat
  deriving DecidableEq, Repr

/-- Algorithm name of the 96-bit-nonce ChaCha20-Poly1305 content cipher. -/
def C20P : String := "C20P"

/-- Algorithm name of the 192-bit-nonce XChaCha20-Poly1305 content cipher. -/
def XC20P : String := "XC20P"

/-- Modelled from the spec: `New(contentAlgorithm)` accepts the two named
algorithms and fixes the nonce size; any other name is rejected
(`UnsupportedAlgorithm`). -/
def New (alg : String) : Except String Crypter :=
  if alg = C20P then .ok ⟨alg, 12⟩
  else if alg = XC20P then .ok ⟨alg, 24⟩
  else .error ("algorithm not supported")

/-- Modelled from the spec: `createCipher(nonceSize, key)` builds the AEAD
used for both content encryption and key wrapping and fails for any nonce
size other than the two supported ones (test `TestBadCreateCipher`). -/
def createCipher (nonceSize : Nat) (key : Bytes) : Except String Unit :=
  if key.length ≠ 32 then .error ("chacha20poly1305: bad key length")
  else if nonceSize = 12 ∨ nonceSize = 24 then .ok ()
  else .error ("cipher cannot be created with nonce size " ++ toString nonceSize)

/-- UTF-8-agnostic byte view of an ASCII string. -/
def strToBytes (s : String) : Bytes := s.data.map Char.toNat

/-- Modelled from the spec: the canonical protected-header JSON recording
`typ`, the outer key-agreement algorithm name and the content-cipher name
(spec sections 3 and 6). -/
def protectedJSON (alg : String) : String :=
  "\x7b\"typ\":\"prs.hyperledger.aries-auth-message\",\"alg\":\"ECDH-SS+" ++ alg ++
    "KW\",\"enc\":\"" ++ alg ++ "\"\x7d"

/-- Base64url form of the protected header as carried on the wire. -/
def protectedOf (alg : String) : String := b64encodeStr (strToBytes (protectedJSON alg))

/-- Modelled from the spec: the stable recipient key identifier derived from
the recipient public key (spec section 4, Encrypt step 3e; section 9 leaves
the exact derivation open, any deterministic injective encoding serves). -/
def kidOf (pub : Bytes) : String := b64encodeStr pub

/-- Modelled from the spec: the per-recipient key-wrap key derived from the
Diffie-Hellman shared secret and the agreement-context bytes `apu`. -/
def kwKey (z apu : Bytes) : Bytes := toB256 (Nat.pair (toN z) (toN apu))

theorem kwKey_inj {z1 a1 z2 a2 : Bytes}
    (hz1 : IsBytes z1) (ha1 : IsBytes a1) (hz2 : IsBytes z2) (ha2 : IsBytes a2)
    (h : kwKey z1 a1 = kwKey z2 a2) : z1 = z2 ∧ a1 = a2 := by
  unfold kwKey at h
  have h1 := toB256_inj h
  have h2 := congrArg Nat.unpair h1
  rw [Nat.unpair_pair, Nat.unpair_pair] at h2
  exact ⟨toN_inj hz1 hz2 (congrArg Prod.fst h2), toN_inj ha1 ha2 (congrArg Prod.snd h2)⟩

theorem kwKey_isBytes (z apu : Bytes) : IsBytes (kwKey z apu) := toB256_isBytes _

/-- Fresh randomness drawn for one recipient block: the ephemeral keypair,
the sub-envelope nonce, the key-wrap nonce, and the `apu` agreement bytes. -/
structure RecipientRand where
  ephPriv : Bytes
  spkNonce : Bytes
  kwNonce : Bytes
  apu : Bytes
  deriving DecidableEq, Repr

/-- Fresh randomness drawn by one `Encrypt` call. -/
structure EncRand where
  cek : Bytes
  iv : Bytes
  recs : List RecipientRand
  deriving DecidableEq, Repr

/-- Modelled from the spec: build one recipient block (spec section 4,
Encrypt step 3): hidden-sender sub-envelope under
`ECDH(ephemeral-private, recipient-public)`, CEK wrap under the key-wrap key
from `ECDH(sender-private, recipient-public)` and `apu`, and the `kid`
lookup identifier. -/
def mkRecipient (c : Crypter) (sender : KeyPair) (cek : Bytes)
    (pr : Bytes × RecipientRand) : Recipient :=
  { encryptedKey :=
      b64encodeStr (sealCT (kwKey (dh sender.priv pr.1) pr.2.apu) pr.2.kwNonce cek),
    header :=
      { apu := b64encodeStr pr.2.apu,
        iv := b64encodeStr pr.2.kwNonce,
        tag := b64encodeStr (sealTag (kwKey (dh sender.priv pr.1) pr.2.apu) pr.2.kwNonce [] cek),
        kid := kidOf pr.1,
        spk := spkEncode
          { epk := pubOf pr.2.ephPriv,
            iv := pr.2.spkNonce,
            tag := sealTag (dh pr.2.ephPriv pr.1) pr.2.spkNonce [] sender.pub,
            ct := sealCT (dh pr.2.ephPriv pr.1) pr.2.spkNonce sender.pub } } }

/-- The `aad` wire field derived from the recipient identifiers. -/
def aadOf (recipients : List Bytes) : Bytes :=
  strToBytes ⟨joinDots (recipients.map (fun p => (kidOf p).data))⟩

/-- Modelled from the spec: the envelope assembled by a successful
`Encrypt` (spec section 4): content sealed once under the CEK with the
protected header as associated data, one recipient block per key. -/
def envOf (c : Crypter) (payload : Bytes) (sender : KeyPair) (recipients : List Bytes)
    (rnd : EncRand) : Envelope :=
  { protectedHeader := protectedOf c.alg,
    recipients := (recipients.zip rnd.recs).map (mkRecipient c sender rnd.cek),
    aad := b64encodeStr (aadOf recipients),
    iv := b64encodeStr rnd.iv,
    tag := b64encodeStr (sealTag rnd.cek rnd.iv (strToBytes (protectedOf c.alg)) payload),
    ciphertext := b64encodeStr (sealCT rnd.cek rnd.iv payload) }

/-- Index (1-based) of the first recipient key that is not 32 bytes. -/
def firstBadRecipient : List Bytes → Nat → Option Nat
  | [], _ => none
  | k :: t, i => if k.length ≠ 32 then some i else firstBadRecipient t (i + 1)

/-- Modelled from the spec: `Encrypt(plaintext, senderKey, recipients)`
(spec section 4): validate the sender keypair, the recipient list and each
recipient key (1-based index in the error), create the cipher for the
configured nonce size, then assemble the envelope. -/
def encrypt (c : Crypter) (payload : Bytes) (sender : KeyPair) (recipients : List Bytes)
    (rnd : EncRand) : Except String Envelope :=
  if sender.pub.isEmpty ∨ sender.priv.isEmpty then
    .error ("failed to encrypt message: invalid keypair")
  else if sender.pub.length ≠ 32 ∨ sender.priv.length ≠ 32 then
    .error ("failed to encrypt message: invalid key")
  else if recipients.isEmpty then
    .error ("failed to encrypt message: empty recipients")
  else
    match firstBadRecipient recipients 1 with
    | some k => .error ("failed to encrypt message: invalid key - for recipient " ++ toString k)
    | none =>
      match createCipher c.nonceSize rnd.cek with
      | .error e => .error ("failed to encrypt message: " ++ e)
      | .ok _ => .ok (envOf c payload sender recipients rnd)

/-- Outcome of `Decrypt`: plaintext, an error returned through the normal
error path, or an unrecoverable abort of the process (Go panic). -/
inductive DecResult where
  | ok (pt : Bytes)
  | err (msg : String)
  | panicked (msg : String)
  deriving DecidableEq, Repr

/-- Error-message prefix of the content-level decryption stage. -/
def msgStage : String := "failed to decrypt message"

/-- Error-message prefix of the hidden-sender stage. -/
def senderStage : String := "failed to decrypt sender key"

/-- Error-message prefix of the CEK-unwrap stage. -/
def sharedStage : String := "failed to decrypt shared key"

/-- The `RecipientNotFound` error as surfaced by `Decrypt`. -/
def rnfMsg : String := msgStage ++ ": recipient not found"

/-- AEAD authentication-failure message of a stage. -/
def authFailMsg (stage : String) : String :=
  stage ++ ": chacha20poly1305: message authentication failed"

/-- Decode one base64url wire field, wrapping the decode error with the
stage prefix. -/
def decodeField (stage : String) (s : String) : Except DecResult Bytes :=
  match b64decode s with
  | .ok b => .ok b
  | .error m => .error (.err (stage ++ ": " ++ m))

/-- Modelled from the spec: locate the recipient block whose `kid` matches
the identifier of the caller's public key; an empty public key
short-circuits to not-found (spec section 4, Decrypt steps 1-2). -/
def findRecipient (env : Envelope) (kp : KeyPair) : Option Recipient :=
  if kp.pub.isEmpty then none
  else env.recipients.find? (fun r => r.header.kid == kidOf kp.pub)

/-- Modelled from the spec: open the hidden-sender sub-envelope with
`ECDH(recipient-private, embedded-ephemeral-public)` to recover the sender's
public key (spec section 4, Decrypt step 3). -/
def decryptSenderKey (c : Crypter) (kp : KeyPair) (r : Recipient) : Except DecResult Bytes :=
  match spkParse c.nonceSize r.header.spk with
  | none => .error (.err (senderStage ++ ": bad SPK format"))
  | some sp =>
    match chachaOpen c.nonceSize (dh kp.priv sp.epk) sp.iv [] sp.ct sp.tag with
    | .panicked m => .error (.panicked m)
    | .authFail => .error (.err (authFailMsg senderStage))
    | .ok senderPub => .ok senderPub

/-- Modelled from the spec: recompute the key-wrap key with
`ECDH(recipient-private, recovered-sender-public)` and open `encrypted_key`
to recover the CEK; the recipient-header nonce length is checked before it
reaches the cipher (`bad nonce size`, pinned by the test at
authcrypt_test.go:331) (spec section 4, Decrypt step 4). -/
def decryptSharedKey (c : Crypter) (kp : KeyPair) (senderPub : Bytes) (r : Recipient) :
    Except DecResult Bytes :=
  match decodeField sharedStage r.header.apu with
  | .error e => .error e
  | .ok apu =>
    match decodeField sharedStage r.header.iv with
    | .error e => .error e
    | .ok nonce =>
      if nonce.length ≠ c.nonceSize then .error (.err (sharedStage ++ ": bad nonce size"))
      else
        match decodeField sharedStage r.header.tag with
        | .error e => .error e
        | .ok tg =>
          match decodeField sharedStage r.encryptedKey with
          | .error e => .error e
          | .ok ek =>
            match chachaOpen c.nonceSize (kwKey (dh kp.priv senderPub) apu) nonce [] ek tg with
            | .panicked m => .error (.panicked m)
            | .authFail => .error (.err (authFailMsg sharedStage))
            | .ok cek => .ok cek

/-- Modelled from the spec: open the shared content ciphertext with the
recovered CEK and the protected header as associated data (spec section 4,
Decrypt step 5); the content nonce length is not re-checked before reaching
the cipher, so a wrong-size content `iv` aborts (the panic pinned by the
test at authcrypt_test.go:380). -/
def decryptPayload (c : Crypter) (env : Envelope) (cek : Bytes) : DecResult :=
  match decodeField msgStage env.ciphertext with
  | .error e => e
  | .ok ct =>
    match decodeField msgStage env.iv with
    | .error e => e
    | .ok nonce =>
      match decodeField msgStage env.tag with
      | .error e => e
      | .ok tg =>
        match chachaOpen c.nonceSize cek nonce (strToBytes env.protectedHeader) ct tg with
        | .panicked m => .panicked m
        | .authFail => .err (authFailMsg msgStage)
        | .ok pt => .ok pt

/-- Modelled from the spec: `Decrypt(envelope, recipientKey)` (spec
section 4): locate the recipient block by `kid`, recover the sender key,
unwrap the CEK, then open the content. -/
def decrypt (c : Crypter) (env : Envelope) (kp : KeyPair) : DecResult :=
  match findRecipient env kp with
  | none => .err rnfMsg
  | some r =>
    match decryptSenderKey c kp r with
    | .error e => e
    | .ok senderPub =>
      match decryptSharedKey c kp senderPub r with
      | .error e => e
      | .ok cek => decryptPayload c env cek

/-- Modelled from the spec: `Decrypt` on raw input; `none` stands for bytes
that do not parse as the envelope JSON (spec section 4, Decrypt step 1). -/
def decryptRaw (c : Crypter) (input : Option Envelope) (kp : KeyPair) : DecResult :=
  match input with
  | none => .err (msgStage ++ ": invalid JSON format")
  | some env => decrypt c env kp

/-- A well-formed keypair: a 32-byte private scalar and the matching public
key. -/
def ValidKeyPair (kp : KeyPair) : Prop :=
  kp.priv.length = 32 ∧ IsBytes kp.priv ∧ kp.pub = pubOf kp.priv

instance : DecidablePred ValidKeyPair := fun kp => by
  unfold ValidKeyPair
  infer_instance

/-- Well-formed randomness for one recipient block under nonce size `ns`. -/
def ValidRecRand (ns : Nat) (r : RecipientRand) : Prop :=
  r.ephPriv.length = 32 ∧ IsBytes r.ephPriv ∧ r.spkNonce.length = ns ∧ IsBytes r.spkNonce ∧
    r.kwNonce.length = ns ∧ IsBytes r.kwNonce ∧ IsBytes r.apu

instance (ns : Nat) : DecidablePred (ValidRecRand ns) := fun r => by
  unfold ValidRecRand
  infer_instance

/-- Well-formed randomness for one `Encrypt` call with `n` recipients. -/
def ValidEncRand (ns n : Nat) (rnd : EncRand) : Prop :=
  rnd.cek.length = 32 ∧ IsBytes rnd.cek ∧ rnd.iv.length = ns ∧ IsBytes rnd.iv ∧
    rnd.recs.length = n ∧ ∀ r ∈ rnd.recs, ValidRecRand ns r

instance (ns n : Nat) (rnd : EncRand) : Decidable (ValidEncRand ns n rnd) := by
  unfold ValidEncRand
  infer_instance

theorem New_ok {alg : String} {c : Crypter} (h : New alg = .ok c) :
    c = ⟨alg, c.nonceSize⟩ ∧ ((alg = C20P ∧ c.nonceSize = 12) ∨ (alg = XC20P ∧ c.nonceSize = 24)) := by
  unfold New at h
  split_ifs at h with h1 h2
  · injection h with h3
    subst h3
    exact ⟨rfl, Or.inl ⟨h1, rfl⟩⟩
  · injection h with h3
    subst h3
    exact ⟨rfl, Or.inr ⟨h2, rfl⟩⟩

theorem b64encodeStr_inj {a b : Bytes} (ha : IsBytes a) (hb : IsBytes b)
    (h : b64encodeStr a = b64encodeStr b) : a = b := by
  have h2 := congrArg b64decode h
  rw [b64decode_encode ha, b64decode_encode hb] at h2
  injection h2

theorem kidOf_inj {a b : Bytes} (ha : IsBytes a) (hb : IsBytes b)
    (h : kidOf a = kidOf b) : a = b := b64encodeStr_inj ha hb h

theorem ValidKeyPair.pubEq {kp : KeyPair} (h : ValidKeyPair kp) : kp.pub = kp.priv := h.2.2

theorem ValidKeyPair.pubLen {kp : KeyPair} (h : ValidKeyPair kp) : kp.pub.length = 32 := by
  rw [h.pubEq]; exact h.1

theorem ValidKeyPair.pubBytes {kp : KeyPair} (h : ValidKeyPair kp) : IsBytes kp.pub := by
  rw [h.pubEq]; exact h.2.1

theorem firstBadRecipient_none {l : List Bytes} (h : ∀ k ∈ l, k.length = 32) :
    ∀ i, firstBadRecipient l i = none := by
  induction l with
  | nil => intro i; rfl
  | cons k t ih =>
    intro i
    have hk : k.length = 32 := h k (by simp)
    simp only [firstBadRecipient, hk]
    exact ih (fun x hx => h x (by simp [hx])) (i + 1)

theorem encrypt_ok {c : Crypter} {pt : Bytes} {sender : KeyPair} {recipients : List Bytes}
    {rnd : EncRand} (hs : ValidKeyPair sender) (hne : recipients ≠ [])
    (hrec : ∀ k ∈ recipients, k.length = 32) (hcek : rnd.cek.length = 32)
    (hns : c.nonceSize = 12 ∨ c.nonceSize = 24) :
    encrypt c pt sender recipients rnd = .ok (envOf c pt sender recipients rnd) := by
  unfold encrypt
  have hpubLen := hs.pubLen
  have hprivLen := hs.1
  rw [if_neg (by
    simp only [List.isEmpty_iff, not_or]
    constructor
    · intro hemp; rw [hemp] at hpubLen; simp at hpubLen
    · intro hemp; rw [hemp] at hprivLen; simp at hprivLen)]
  rw [if_neg (by omega)]
  rw [if_neg (by simpa [List.isEmpty_iff] using hne)]
  rw [firstBadRecipient_none hrec 1]
  unfold createCipher
  rw [if_neg (by omega), if_pos hns]

theorem sealCT_isBytes (key nonce pt : Bytes) : IsBytes (sealCT key nonce pt) :=
  encGo_isBytes key nonce 0 pt

theorem sealTag_isBytes (key nonce ad pt : Bytes) : IsBytes (sealTag key nonce ad pt) :=
  toB256_isBytes _

theorem findRecipient_zip {c : Crypter} {sender : KeyPair} {cek p : Bytes} :
    ∀ (pubs : List Bytes) (rrs : List RecipientRand),
    pubs.length = rrs.length → (∀ k ∈ pubs, IsBytes k) → IsBytes p → p ∈ pubs →
    ∃ rr ∈ rrs, ((pubs.zip rrs).map (mkRecipient c sender cek)).find?
        (fun r => r.header.kid == kidOf p) = some (mkRecipient c sender cek (p, rr)) := by
  intro pubs
  induction pubs with
  | nil => intro rrs _ _ _ hp; simp at hp
  | cons q pubs2 ih =>
    intro rrs hlen hb hp hmem
    cases rrs with
    | nil => simp at hlen
    | cons rr0 rrs2 =>
      by_cases hq : q = p
      · subst hq
        refine ⟨rr0, by simp, ?_⟩
        simp only [List.zip_cons_cons, List.map_cons]
        apply List.find?_cons_of_pos
        simp [mkRecipient]
      · have hne : ((mkRecipient c sender cek (q, rr0)).header.kid == kidOf p) = false := by
          simp only [mkRecipient]
          simp only [beq_eq_false_iff_ne, ne_eq]
          intro heq
          exact hq (kidOf_inj (hb q (by simp)) hp heq)
        have hmem2 : p ∈ pubs2 := by
          rcases List.mem_cons.mp hmem with h | h
          · exact absurd h.symm hq
          · exact h
        obtain ⟨rr, hrrmem, hfind⟩ := ih rrs2 (by simpa using hlen)
          (fun k hk => hb k (by simp [hk])) hp hmem2
        refine ⟨rr, by simp [hrrmem], ?_⟩
        simp only [List.zip_cons_cons, List.map_cons]
        rw [List.find?_cons_of_neg _ (by simp [hne])]
        exact hfind

theorem findRecipient_envOf {c : Crypter} {pt : Bytes} {sender : KeyPair}
    {recipients : List Bytes} {rnd : EncRand} {kp : KeyPair}
    (hlen : recipients.length = rnd.recs.length) (hr : ∀ k ∈ recipients, IsBytes k)
    (hkp : IsBytes kp.pub) (hp : kp.pub ∈ recipients) (hnem : kp.pub ≠ []) :
    ∃ rr ∈ rnd.recs, findRecipient (envOf c pt sender recipients rnd) kp =
      some (mkRecipient c sender rnd.cek (kp.pub, rr)) := by
  unfold findRecipient envOf
  rw [if_neg (by simpa [List.isEmpty_iff] using hnem)]
  exact findRecipient_zip recipients rnd.recs hlen hr hkp hp

theorem decryptSenderKey_mk {c : Crypter} {sender kp : KeyPair} {cek recPub : Bytes}
    {rr : RecipientRand} (hrr : ValidRecRand c.nonceSize rr) (hs : ValidKeyPair sender)
    (hk : ValidKeyPair kp) (hpub : kp.pub = recPub) :
    decryptSenderKey c kp (mkRecipient c sender cek (recPub, rr)) = .ok sender.pub := by
  obtain ⟨hel, heb, hsl, hsb, hwl, hwb, hab⟩ := hrr
  have hparse : spkParse c.nonceSize
      (mkRecipient c sender cek (recPub, rr)).header.spk =
      some { epk := pubOf rr.ephPriv, iv := rr.spkNonce,
             tag := sealTag (dh rr.ephPriv recPub) rr.spkNonce [] sender.pub,
             ct := sealCT (dh rr.ephPriv recPub) rr.spkNonce sender.pub } := by
    apply spkParse_spkEncode
    · exact heb
    · exact hsb
    · exact sealTag_isBytes _ _ _ _
    · exact sealCT_isBytes _ _ _
    · exact hel
    · exact hsl
  simp only [decryptSenderKey, hparse]
  have hkey : dh kp.priv (pubOf rr.ephPriv) = dh rr.ephPriv recPub := by
    rw [dh_comm kp.priv rr.ephPriv, ← hk.2.2, hpub]
  rw [hkey, chachaOpen_seal hsl hs.pubBytes]

theorem decryptSharedKey_mk {c : Crypter} {sender kp : KeyPair} {cek recPub : Bytes}
    {rr : RecipientRand} (hrr : ValidRecRand c.nonceSize rr) (hs : ValidKeyPair sender)
    (hk : ValidKeyPair kp) (hpub : kp.pub = recPub) (hcekB : IsBytes cek) :
    decryptSharedKey c kp sender.pub (mkRecipient c sender cek (recPub, rr)) = .ok cek := by
  obtain ⟨hel, heb, hsl, hsb, hwl, hwb, hab⟩ := hrr
  have hkey : dh kp.priv sender.pub = dh sender.priv recPub := by
    rw [hs.2.2, dh_comm kp.priv sender.priv, ← hk.2.2, hpub]
  simp only [decryptSharedKey, mkRecipient, decodeField,
    b64decode_encode hab, b64decode_encode hwb,
    b64decode_encode (sealTag_isBytes _ _ _ _), b64decode_encode (sealCT_isBytes _ _ _)]
  rw [if_neg (by omega)]
  rw [hkey, chachaOpen_seal hwl hcekB]

theorem decryptPayload_envOf {c : Crypter} {pt : Bytes} {sender : KeyPair}
    {recipients : List Bytes} {rnd : EncRand}
    (hiv : rnd.iv.length = c.nonceSize) (hivB : IsBytes rnd.iv) (hpt : IsBytes pt) :
    decryptPayload c (envOf c pt sender recipients rnd) rnd.cek = .ok pt := by
  simp only [decryptPayload, envOf, decodeField,
    b64decode_encode (sealCT_isBytes _ _ _), b64decode_encode (sealTag_isBytes _ _ _ _),
    b64decode_encode hivB]
  rw [chachaOpen_seal hiv hpt]

/-- Claim C1: for every supported content-cipher choice (C20P or XC20P),
every valid 32-byte sender keypair, every plaintext, every non-empty list of
valid 32-byte recipient keypairs and every draw of well-formed randomness,
decrypting the envelope produced by `encrypt` with any recipient's keypair
returns the original plaintext, including when the decrypting crypter is a
separately constructed instance with the same algorithm name. -/
theorem C1_round_trip (alg : String) (c c2 : Crypter) (hc : New alg = .ok c)
    (hc2 : New alg = .ok c2) (sender : KeyPair) (hs : ValidKeyPair sender)
    (pt : Bytes) (hpt : IsBytes pt) (recs : List KeyPair)
    (hr : ∀ k ∈ recs, ValidKeyPair k) (hne : recs ≠ [])
    (rnd : EncRand) (hrnd : ValidEncRand c.nonceSize recs.length rnd)
    (i : Nat) (hi : i < recs.length) (env : Envelope)
    (henv : encrypt c pt sender (recs.map (fun k => k.pub)) rnd = .ok env) :
    decrypt c2 env (recs.get ⟨i, hi⟩) = .ok pt := by
  have hcc : c2 = c := by
    rw [hc] at hc2
    injection hc2 with h
    exact h.symm
  rw [hcc]
  obtain ⟨hcek, hcekB, hivl, hivB, hrl, hrrs⟩ := hrnd
  have hns : c.nonceSize = 12 ∨ c.nonceSize = 24 := by
    rcases (New_ok hc).2 with ⟨_, h⟩ | ⟨_, h⟩
    · exact Or.inl h
    · exact Or.inr h
  have hrec32 : ∀ k ∈ recs.map (fun k => k.pub), k.length = 32 := by
    intro k hk
    obtain ⟨kp, hkpmem, hkp⟩ := List.mem_map.mp hk
    rw [← hkp]
    exact (hr kp hkpmem).pubLen
  have hrecB : ∀ k ∈ recs.map (fun k => k.pub), IsBytes k := by
    intro k hk
    obtain ⟨kp, hkpmem, hkp⟩ := List.mem_map.mp hk
    rw [← hkp]
    exact (hr kp hkpmem).pubBytes
  have henv2 := @encrypt_ok c pt sender (recs.map (fun k => k.pub)) rnd hs
    (by simpa using hne) hrec32 hcek hns
  rw [henv2] at henv
  have henveq : env = envOf c pt sender (recs.map (fun k => k.pub)) rnd := by
    injection henv with h
    exact h.symm
  subst henveq
  have hkpv : ValidKeyPair (recs.get ⟨i, hi⟩) := hr _ (recs.get_mem i hi)
  have hmem : (recs.get ⟨i, hi⟩).pub ∈ recs.map (fun k => k.pub) :=
    List.mem_map.mpr ⟨recs.get ⟨i, hi⟩, recs.get_mem i hi, rfl⟩
  obtain ⟨rr, hrrmem, hfind⟩ := @findRecipient_envOf c pt sender
    (recs.map (fun k => k.pub)) rnd (recs.get ⟨i, hi⟩) (by simp [hrl]) hrecB hkpv.pubBytes hmem
    (by
      intro hemp
      have := hkpv.pubLen
      rw [hemp] at this
      simp at this)
  simp only [decrypt, hfind,
    decryptSenderKey_mk (hrrs rr hrrmem) hs hkpv rfl,
    decryptSharedKey_mk (hrrs rr hrrmem) hs hkpv rfl hcekB]
  exact decryptPayload_envOf hivl hivB hpt

/-- Concrete sender keypair used by the witnesses. -/
def wSender : KeyPair := ⟨List.replicate 32 7, List.replicate 32 7⟩

/-- Concrete first recipient keypair. -/
def wRec1 : KeyPair := ⟨List.replicate 32 1, List.replicate 32 1⟩

/-- Concrete second recipient keypair. -/
def wRec2 : KeyPair := ⟨List.replicate 32 2, List.replicate 32 2⟩

/-- Concrete per-recipient randomness. -/
def wRR (k : Nat) : RecipientRand :=
  ⟨List.replicate 32 (10 + k), List.replicate 24 (20 + k),
   List.replicate 24 (30 + k), List.replicate 4 (40 + k)⟩

/-- Concrete encryption randomness for two recipients. -/
def wRnd : EncRand := ⟨List.replicate 32 9, List.replicate 24 5, [wRR 0, wRR 1]⟩

/-- The XC20P crypter as built by `New`. -/
def wC : Crypter := ⟨XC20P, 24⟩

/-- Concrete plaintext. -/
def wPT : Bytes := [108, 111, 114, 101, 109]

/-- Concrete envelope produced by `encrypt` for two recipients. -/
def wEnv : Envelope := envOf wC wPT wSender [wRec1.pub, wRec2.pub] wRnd

theorem C1_round_trip_witness :
    decrypt wC wEnv ([wRec1, wRec2].get ⟨1, by decide⟩) = DecResult.ok wPT := by
  apply C1_round_trip XC20P wC wC (by rfl) (by rfl) wSender (by decide) wPT (by decide)
    [wRec1, wRec2] (by decide) (by decide) wRnd (by decide) 1 (by decide) wEnv
  exact encrypt_ok (by decide) (by decide) (by decide) (by decide) (by decide)

theorem str_ne_of_getElem {s1 s2 : String} (i : Nat)
    (h : s1.data[i]? ≠ s2.data[i]?) : s1 ≠ s2 := by
  intro he
  rw [he] at h
  exact h rfl

theorem append_data_getElem_left {a b : String} {i : Nat} (h : i < a.data.length) :
    (a ++ b).data[i]? = a.data[i]? := by
  rw [String.data_append, List.getElem?_append, if_pos h]

/-- Any message carried by the shared-key stage differs from the
recipient-not-found message. -/
theorem sharedStage_append_ne_rnf (rest : String) : sharedStage ++ rest ≠ rnfMsg := by
  apply str_ne_of_getElem 18
  rw [append_data_getElem_left (by decide)]
  decide

/-- Any message carried by the sender-key stage differs from the
recipient-not-found message. -/
theorem senderStage_append_ne_rnf (rest : String) : senderStage ++ rest ≠ rnfMsg := by
  apply str_ne_of_getElem 18
  rw [append_data_getElem_left (by decide)]
  decide

/-- A base64 decode error surfaced at the content stage differs from the
recipient-not-found message. -/
theorem msgStage_illegal_ne_rnf (k : Nat) :
    msgStage ++ ": " ++ ("illegal base64 data at input byte " ++ toString k) ≠ rnfMsg := by
  have hre : msgStage ++ ": " ++ ("illegal base64 data at input byte " ++ toString k) =
      (msgStage ++ ": " ++ "illegal base64 data at input byte ") ++ toString k := by
    rw [String.append_assoc (msgStage ++ ": ")]
  rw [hre]
  have hrnf : rnfMsg = rnfMsg ++ "" := (String.append_empty rnfMsg).symm
  rw [hrnf]
  apply str_ne_of_getElem 27
  rw [append_data_getElem_left (by decide)]
  decide

/-- The content-stage authentication-failure message differs from the
recipient-not-found message. -/
theorem msgStage_auth_ne_rnf : authFailMsg msgStage ≠ rnfMsg := by decide

theorem decodeField_error_shape {stage s : String} {e : DecResult}
    (h : decodeField stage s = .error e) :
    ∃ m, b64decode s = .error m ∧ e = .err (stage ++ ": " ++ m) := by
  unfold decodeField at h
  cases hb : b64decode s with
  | ok b => rw [hb] at h; exact absurd h (by simp)
  | error m =>
    rw [hb] at h
    refine ⟨m, rfl, ?_⟩
    injection h with h2
    exact h2.symm

theorem decryptSenderKey_error_shape {c : Crypter} {kp : KeyPair} {r : Recipient}
    {e : DecResult} (h : decryptSenderKey c kp r = .error e) :
    e = .err (senderStage ++ ": bad SPK format") ∨ e = .err (authFailMsg senderStage) ∨
      ∃ m, e = .panicked m := by
  unfold decryptSenderKey at h
  split at h
  · left
    injection h with h2
    exact h2.symm
  · split at h
    · rename_i m hop
      right; right
      refine ⟨m, ?_⟩
      injection h with h2
      exact h2.symm
    · right; left
      injection h with h2
      exact h2.symm
    · exact absurd h (by simp)

theorem decryptSharedKey_error_shape {c : Crypter} {kp : KeyPair} {sp : Bytes}
    {r : Recipient} {e : DecResult} (h : decryptSharedKey c kp sp r = .error e) :
    (∃ rest, e = .err (sharedStage ++ rest)) ∨ ∃ m, e = .panicked m := by
  unfold decryptSharedKey at h
  split at h
  · rename_i e2 hapu
    obtain ⟨m, _, he2⟩ := decodeField_error_shape hapu
    left
    refine ⟨": " ++ m, ?_⟩
    injection h with h2
    rw [← h2, he2, String.append_assoc]
  · split at h
    · rename_i e2 hiv
      obtain ⟨m, _, he2⟩ := decodeField_error_shape hiv
      left
      refine ⟨": " ++ m, ?_⟩
      injection h with h2
      rw [← h2, he2, String.append_assoc]
    · split at h
      · left
        refine ⟨": bad nonce size", ?_⟩
        injection h with h2
        exact h2.symm
      · split at h
        · rename_i e2 htg
          obtain ⟨m, _, he2⟩ := decodeField_error_shape htg
          left
          refine ⟨": " ++ m, ?_⟩
          injection h with h2
          rw [← h2, he2, String.append_assoc]
        · split at h
          · rename_i e2 hek
            obtain ⟨m, _, he2⟩ := decodeField_error_shape hek
            left
            refine ⟨": " ++ m, ?_⟩
            injection h with h2
            rw [← h2, he2, String.append_assoc]
          · split at h
            · rename_i m hop
              right
              refine ⟨m, ?_⟩
              injection h with h2
              exact h2.symm
            · left
              refine ⟨": chacha20poly1305: message authentication failed", ?_⟩
              injection h with h2
              exact h2.symm
            · exact absurd h (by simp)

theorem decryptPayload_ne_rnf {c : Crypter} {env : Envelope} {cek : Bytes} :
    decryptPayload c env cek ≠ .err rnfMsg := by
  unfold decryptPayload
  cases hct : decodeField msgStage env.ciphertext with
  | error e =>
    obtain ⟨m, hm, he⟩ := decodeField_error_shape hct
    obtain ⟨k, hk⟩ := b64decode_error_shape hm
    subst hk
    rw [he]
    intro hcontra
    injection hcontra with h2
    exact msgStage_illegal_ne_rnf k h2
  | ok ct =>
    cases hiv : decodeField msgStage env.iv with
    | error e =>
      obtain ⟨m, hm, he⟩ := decodeField_error_shape hiv
      obtain ⟨k, hk⟩ := b64decode_error_shape hm
      subst hk
      rw [he]
      intro hcontra
      injection hcontra with h2
      exact msgStage_illegal_ne_rnf k h2
    | ok nonce =>
      cases htg : decodeField msgStage env.tag with
      | error e =>
        obtain ⟨m, hm, he⟩ := decodeField_error_shape htg
        obtain ⟨k, hk⟩ := b64decode_error_shape hm
        subst hk
        rw [he]
        intro hcontra
        injection hcontra with h2
        exact msgStage_illegal_ne_rnf k h2
      | ok tg =>
        cases hop : chachaOpen c.nonceSize cek nonce (strToBytes env.protectedHeader) ct tg with
        | panicked m => simp [hop]
        | ok pt => simp [hop]
        | authFail =>
          simp only [hop]
          intro hcontra
          injection hcontra with h2
          exact msgStage_auth_ne_rnf h2

theorem decrypt_found_ne_rnf {c : Crypter} {env : Envelope} {kp : KeyPair} {r : Recipient}
    (hfind : findRecipient env kp = some r) : decrypt c env kp ≠ .err rnfMsg := by
  have hred : decrypt c env kp =
      (match decryptSenderKey c kp r with
       | .error e => e
       | .ok senderPub =>
         match decryptSharedKey c kp senderPub r with
         | .error e => e
         | .ok cek => decryptPayload c env cek) := by
    unfold decrypt
    rw [hfind]
  rw [hred]
  cases hsk : decryptSenderKey c kp r with
  | error e =>
    rcases decryptSenderKey_error_shape hsk with he | he | ⟨m, he⟩
    · subst he
      intro hcontra
      have h2 : DecResult.err (senderStage ++ ": bad SPK format") = DecResult.err rnfMsg :=
        hcontra
      injection h2 with h3
      exact senderStage_append_ne_rnf (": bad SPK format") h3
    · subst he
      intro hcontra
      have h2 : DecResult.err (authFailMsg senderStage) = DecResult.err rnfMsg := hcontra
      injection h2 with h3
      exact senderStage_append_ne_rnf (": chacha20poly1305: message authentication failed") h3
    · subst he
      intro hcontra
      have h2 : DecResult.panicked m = DecResult.err rnfMsg := hcontra
      exact DecResult.noConfusion h2
  | ok senderPub =>
    show (match decryptSharedKey c kp senderPub r with
          | Except.error e => e
          | Except.ok cek => decryptPayload c env cek) ≠ DecResult.err rnfMsg
    cases hshk : decryptSharedKey c kp senderPub r with
    | error e =>
      rcases decryptSharedKey_error_shape hshk with ⟨rest, he⟩ | ⟨m, he⟩
      · subst he
        intro hcontra
        have h2 : DecResult.err (sharedStage ++ rest) = DecResult.err rnfMsg := hcontra
        injection h2 with h3
        exact sharedStage_append_ne_rnf rest h3
      · subst he
        intro hcontra
        have h2 : DecResult.panicked m = DecResult.err rnfMsg := hcontra
        exact DecResult.noConfusion h2
    | ok cek =>
      exact decryptPayload_ne_rnf

theorem encrypt_ok_inv {c : Crypter} {pt : Bytes} {sender : KeyPair}
    {recipients : List Bytes} {rnd : EncRand} {env : Envelope}
    (h : encrypt c pt sender recipients rnd = .ok env) :
    env = envOf c pt sender recipients rnd := by
  unfold encrypt at h
  split_ifs at h
  split at h
  · exact absurd h (by simp)
  · split at h
    · exact absurd h (by simp)
    · injection h with h2
      exact h2.symm

theorem decrypt_rnf_iff (c : Crypter) (env : Envelope) (kp : KeyPair) :
    decrypt c env kp = .err rnfMsg ↔
      (kp.pub = [] ∨ ∀ r ∈ env.recipients, r.header.kid ≠ kidOf kp.pub) := by
  constructor
  · intro h
    by_cases hemp : kp.pub = []
    · exact Or.inl hemp
    · right
      intro r hr hkid
      have hfind : ∃ r2, findRecipient env kp = some r2 := by
        unfold findRecipient
        rw [if_neg (by simpa [List.isEmpty_iff] using hemp)]
        have hsome : (env.recipients.find? (fun r => r.header.kid == kidOf kp.pub)).isSome := by
          rw [List.find?_isSome]
          exact ⟨r, hr, by simp [hkid]⟩
        obtain ⟨r2, hr2⟩ := Option.isSome_iff_exists.mp hsome
        exact ⟨r2, hr2⟩
      obtain ⟨r2, hr2⟩ := hfind
      exact decrypt_found_ne_rnf hr2 h
  · intro h
    unfold decrypt findRecipient
    rcases h with hemp | hall
    · rw [if_pos (by simp [hemp])]
    · by_cases hemp : kp.pub.isEmpty
      · rw [if_pos hemp]
      · rw [if_neg hemp]
        have hnone : env.recipients.find? (fun r => r.header.kid == kidOf kp.pub) = none := by
          rw [List.find?_eq_none]
          intro x hx
          simp only [beq_eq_false_iff_ne, ne_eq, Bool.not_eq_true, beq_eq_false_iff_ne]
          exact hall x hx
        rw [hnone]

/-- Claim C5: `Decrypt` fails with `RecipientNotFound` exactly when no
recipient block's `kid` matches the identifier derived from the caller's
public key or the caller supplies an empty public key; in particular a key
pair outside the original recipient list of an `encrypt`-produced envelope
always yields `RecipientNotFound`, and no plaintext is returned. -/
theorem C5_recipient_not_found :
    (∀ (c : Crypter) (env : Envelope) (kp : KeyPair),
      decrypt c env kp = .err rnfMsg ↔
        (kp.pub = [] ∨ ∀ r ∈ env.recipients, r.header.kid ≠ kidOf kp.pub)) ∧
    (∀ (alg : String) (c : Crypter) (sender : KeyPair) (pt : Bytes) (recs : List KeyPair)
      (rnd : EncRand) (kp : KeyPair) (env : Envelope),
      New alg = .ok c → (∀ k ∈ recs, ValidKeyPair k) → IsBytes kp.pub →
      kp.pub ∉ recs.map (fun k => k.pub) →
      encrypt c pt sender (recs.map (fun k => k.pub)) rnd = .ok env →
      decrypt c env kp = .err rnfMsg) := by
  constructor
  · exact decrypt_rnf_iff
  · intro alg c sender pt recs rnd kp env hnew hrecs hkpB hnotin henv
    have henveq := encrypt_ok_inv henv
    subst henveq
    apply (decrypt_rnf_iff c _ kp).mpr
    right
    intro r hr hkid
    simp only [envOf] at hr
    obtain ⟨pr, hprmem, hpr⟩ := List.mem_map.mp hr
    have hkid2 : r.header.kid = kidOf pr.1 := by
      rw [← hpr]
      rfl
    have hp1mem : pr.1 ∈ recs.map (fun k => k.pub) := (List.mem_zip hprmem).1
    have hp1B : IsBytes pr.1 := by
      obtain ⟨kpv, hkpvmem, hkpv⟩ := List.mem_map.mp hp1mem
      rw [← hkpv]
      exact (hrecs kpv hkpvmem).pubBytes
    rw [hkid2] at hkid
    have := kidOf_inj hp1B hkpB hkid
    rw [this] at hp1mem
    exact hnotin hp1mem

theorem C5_recipient_not_found_witness :
    decrypt wC wEnv ⟨List.replicate 32 3, List.replicate 32 3⟩ = DecResult.err rnfMsg := by
  apply C5_recipient_not_found.2 XC20P wC wSender wPT [wRec1, wRec2] wRnd
    ⟨List.replicate 32 3, List.replicate 32 3⟩ wEnv (by rfl) (by decide) (by decide) (by decide)
  exact encrypt_ok (by decide) (by decide) (by decide) (by decide) (by decide)

theorem createCipher_invalid_nonce {key : Bytes} : ∃ e, createCipher 0 key = .error e := by
  unfold createCipher
  split_ifs with h1 h2
  · exact ⟨_, rfl⟩
  · exact absurd h2 (by decide)
  · exact ⟨_, rfl⟩

/-- Claim C10: the crypter's nonce-size configuration is an exposed field of
the `Crypter` structure (its post-construction mutation is modelled by a
record update); with the nonce size scrambled to 0, a subsequent `encrypt`
with otherwise valid inputs returns an error through the normal error path
and produces no envelope. -/
theorem C10_mutated_nonce_size (alg : String) (c : Crypter) (hc : New alg = .ok c)
    (pt : Bytes) (sender : KeyPair) (recipients : List Bytes) (rnd : EncRand)
    (hs : ValidKeyPair sender) (hne : recipients ≠ [])
    (hrec : ∀ k ∈ recipients, k.length = 32) :
    ∃ e, encrypt { c with nonceSize := 0 } pt sender recipients rnd = .error e := by
  unfold encrypt
  have hpubLen := hs.pubLen
  have hprivLen := hs.1
  rw [if_neg (by
    simp only [List.isEmpty_iff, not_or]
    constructor
    · intro hemp; rw [hemp] at hpubLen; simp at hpubLen
    · intro hemp; rw [hemp] at hprivLen; simp at hprivLen)]
  rw [if_neg (by omega)]
  rw [if_neg (by simpa [List.isEmpty_iff] using hne)]
  rw [firstBadRecipient_none hrec 1]
  obtain ⟨e, he⟩ := @createCipher_invalid_nonce rnd.cek
  rw [he]
  exact ⟨_, rfl⟩

theorem C10_mutated_nonce_size_witness :
    ∃ e, encrypt { wC with nonceSize := 0 } wPT wSender [wRec1.pub, wRec2.pub] wRnd =
      .error e :=
  C10_mutated_nonce_size XC20P wC (by rfl) wPT wSender [wRec1.pub, wRec2.pub] wRnd
    (by decide) (by decide) (by decide)

theorem firstBadRecipient_append {bad : Bytes} (hbad : bad.length ≠ 32) :
    ∀ (pre : List Bytes) (rest : List Bytes) (i : Nat), (∀ k ∈ pre, k.length = 32) →
    firstBadRecipient (pre ++ bad :: rest) i = some (i + pre.length) := by
  intro pre
  induction pre with
  | nil =>
    intro rest i _
    simp only [List.nil_append, firstBadRecipient, if_pos hbad, List.length_nil]
    simp
  | cons k t ih =>
    intro rest i hpre
    have hk : k.length = 32 := hpre k (by simp)
    simp only [List.cons_append, firstBadRecipient, hk, List.append_eq]
    rw [if_neg (by omega)]
    rw [ih rest (i + 1) (fun x hx => hpre x (by simp [hx]))]
    simp only [List.length_cons]
    congr 1
    omega

/-- Claim C9: `encrypt` called with a recipient key of the wrong byte length
at 1-based position `k` while all earlier recipient keys are valid fails
with `invalid key - for recipient k`, reporting exactly the first offending
index with the numbering as supplied, and returns no envelope. -/
theorem C9_bad_recipient_index (c : Crypter) (pt : Bytes) (sender : KeyPair)
    (pre : List Bytes) (bad : Bytes) (rest : List Bytes) (rnd : EncRand)
    (hs : ValidKeyPair sender) (hpre : ∀ k ∈ pre, k.length = 32)
    (hbad : bad.length ≠ 32) :
    encrypt c pt sender (pre ++ bad :: rest) rnd =
      .error ("failed to encrypt message: invalid key - for recipient " ++
        toString (pre.length + 1)) := by
  unfold encrypt
  have hpubLen := hs.pubLen
  have hprivLen := hs.1
  rw [if_neg (by
    simp only [List.isEmpty_iff, not_or]
    constructor
    · intro hemp; rw [hemp] at hpubLen; simp at hpubLen
    · intro hemp; rw [hemp] at hprivLen; simp at hprivLen)]
  rw [if_neg (by omega)]
  rw [if_neg (by simp [List.isEmpty_iff])]
  rw [firstBadRecipient_append hbad pre rest 1 hpre]
  rw [Nat.add_comm 1 pre.length]

theorem C9_bad_recipient_index_witness :
    encrypt wC wPT wSender ([wRec1.pub] ++ [0, 0] :: [wRec2.pub]) wRnd =
      .error ("failed to encrypt message: invalid key - for recipient " ++
        toString ([wRec1.pub].length + 1)) :=
  C9_bad_recipient_index wC wPT wSender [wRec1.pub] [0, 0] [wRec2.pub] wRnd
    (by decide) (by decide) (by decide)

theorem decryptSenderKey_mk_wrongPriv {c : Crypter} {sender kp : KeyPair} {cek recPub : Bytes}
    {rr : RecipientRand} (hrr : ValidRecRand c.nonceSize rr) (hsB : IsBytes sender.pub)
    (hkB : IsBytes kp.priv) (hkL : kp.priv.length = 32)
    (hrecB : IsBytes recPub) (hrecL : recPub.length = 32) (hne : recPub ≠ kp.priv) :
    decryptSenderKey c kp (mkRecipient c sender cek (recPub, rr)) =
      .error (.err (authFailMsg senderStage)) := by
  obtain ⟨hel, heb, hsl, hsb, hwl, hwb, hab⟩ := hrr
  have hparse : spkParse c.nonceSize
      (mkRecipient c sender cek (recPub, rr)).header.spk =
      some { epk := pubOf rr.ephPriv, iv := rr.spkNonce,
             tag := sealTag (dh rr.ephPriv recPub) rr.spkNonce [] sender.pub,
             ct := sealCT (dh rr.ephPriv recPub) rr.spkNonce sender.pub } := by
    apply spkParse_spkEncode
    · exact heb
    · exact hsb
    · exact sealTag_isBytes _ _ _ _
    · exact sealCT_isBytes _ _ _
    · exact hel
    · exact hsl
  simp only [decryptSenderKey, hparse]
  have hkey : dh kp.priv (pubOf rr.ephPriv) = dh rr.ephPriv kp.priv :=
    dh_comm kp.priv rr.ephPriv
  have hkeys : dh rr.ephPriv kp.priv ≠ dh rr.ephPriv recPub := by
    intro heq
    exact hne (dh_cancel_left (by omega) hrecB hkB heq.symm (by omega))
  have htag : sealTag (dh rr.ephPriv recPub) rr.spkNonce [] sender.pub ≠
      macBytes (dh kp.priv (pubOf rr.ephPriv)) rr.spkNonce []
        (sealCT (dh rr.ephPriv recPub) rr.spkNonce sender.pub) := by
    rw [hkey]
    unfold sealTag
    intro heq
    have := macBytes_inj (dh_isBytes _ _) hsb (by intro b hb; simp at hb)
      (sealCT_isBytes _ _ _) (dh_isBytes _ _) hsb (by intro b hb; simp at hb)
      (sealCT_isBytes _ _ _) heq
    exact hkeys this.1.symm
  rw [chachaOpen_authFail hsl htag]

/-- Claim C4 (amended): decrypting an `encrypt`-produced envelope with a key
pair formed by one listed recipient's private key paired with a different
listed recipient's public key fails at the hidden-sender open (step 3)
authentication check — before the CEK-unwrap — and never returns
plaintext. -/
theorem C4_mixed_keys (alg : String) (c : Crypter) (hc : New alg = .ok c)
    (sender : KeyPair) (hs : ValidKeyPair sender) (pt : Bytes)
    (recs : List KeyPair) (hr : ∀ k ∈ recs, ValidKeyPair k)
    (rnd : EncRand) (hrnd : ValidEncRand c.nonceSize recs.length rnd)
    (i j : Nat) (hi : i < recs.length) (hj : j < recs.length)
    (hij : (recs.get ⟨i, hi⟩).pub ≠ (recs.get ⟨j, hj⟩).pub) (env : Envelope)
    (henv : encrypt c pt sender (recs.map (fun k => k.pub)) rnd = .ok env) :
    decrypt c env ⟨(recs.get ⟨j, hj⟩).priv, (recs.get ⟨i, hi⟩).pub⟩ =
      .err (authFailMsg senderStage) := by
  obtain ⟨hcek, hcekB, hivl, hivB, hrl, hrrs⟩ := hrnd
  have hvi : ValidKeyPair (recs.get ⟨i, hi⟩) := hr _ (recs.get_mem i hi)
  have hvj : ValidKeyPair (recs.get ⟨j, hj⟩) := hr _ (recs.get_mem j hj)
  have henveq := encrypt_ok_inv henv
  subst henveq
  have hrecB : ∀ k ∈ recs.map (fun k => k.pub), IsBytes k := by
    intro k hk
    obtain ⟨kp, hkpmem, hkp⟩ := List.mem_map.mp hk
    rw [← hkp]
    exact (hr kp hkpmem).pubBytes
  have hmem : (recs.get ⟨i, hi⟩).pub ∈ recs.map (fun k => k.pub) :=
    List.mem_map.mpr ⟨recs.get ⟨i, hi⟩, recs.get_mem i hi, rfl⟩
  obtain ⟨rr, hrrmem, hfind⟩ := @findRecipient_envOf c pt sender
    (recs.map (fun k => k.pub)) rnd ⟨(recs.get ⟨j, hj⟩).priv, (recs.get ⟨i, hi⟩).pub⟩
    (by simp [hrl]) hrecB hvi.pubBytes hmem
    (by
      intro hemp
      have := hvi.pubLen
      rw [hemp] at this
      simp at this)
  have hne : (recs.get ⟨i, hi⟩).pub ≠ (recs.get ⟨j, hj⟩).priv := by
    rw [← hvj.pubEq]
    exact hij
  have hsk := @decryptSenderKey_mk_wrongPriv c sender
    ⟨(recs.get ⟨j, hj⟩).priv, (recs.get ⟨i, hi⟩).pub⟩ rnd.cek
    ((recs.get ⟨i, hi⟩).pub) rr (hrrs rr hrrmem) hs.pubBytes
    (by rw [← hvj.pubEq]; exact hvj.pubBytes) (by rw [← hvj.pubEq]; exact hvj.pubLen)
    hvi.pubBytes hvi.pubLen hne
  simp only [decrypt, hfind, hsk]

set_option maxRecDepth 100000 in
set_option maxHeartbeats 2000000 in
/-- Counterexample to claim C4 as stated: at a concrete two-recipient
envelope, decrypting with recipient 2's private key paired with
recipient 1's public key fails with the hidden-sender (step 3)
authentication error, which is not the CEK-unwrap (step 4) error — the
failure happens earlier than the claim asserts. -/
theorem C4_mixed_keys_counterexample :
    decrypt wC wEnv ⟨wRec2.priv, wRec1.pub⟩ = DecResult.err (authFailMsg senderStage) ∧
      authFailMsg senderStage ≠ authFailMsg sharedStage := by
  constructor
  · decide
  · decide

theorem C4_mixed_keys_witness :
    decrypt wC wEnv ⟨wRec2.priv, wRec1.pub⟩ = DecResult.err (authFailMsg senderStage) := by
  have h := C4_mixed_keys XC20P wC (by rfl) wSender (by decide) wPT [wRec1, wRec2]
    (by decide) wRnd (by decide) 0 1 (by decide) (by decide) (by decide) wEnv
    (encrypt_ok (by decide) (by decide) (by decide) (by decide) (by decide))
  exact h

/-- The wire fields of an envelope a tamperer can replace (the recipient
fields address the block of the decrypting recipient). -/
inductive WireField where
  | ciphertext
  | tag
  | iv
  | encryptedKey
  | apu
  | recIV
  | recTag
  | kid
  | spk
  deriving DecidableEq, Repr

/-- Replace one field of a recipient block. -/
def setRecipientField (r : Recipient) (f : WireField) (s : String) : Recipient :=
  match f with
  | .encryptedKey => { r with encryptedKey := s }
  | .apu => { r with header := { r.header with apu := s } }
  | .recIV => { r with header := { r.header with iv := s } }
  | .recTag => { r with header := { r.header with tag := s } }
  | .kid => { r with header := { r.header with kid := s } }
  | .spk => { r with header := { r.header with spk := s } }
  | _ => r

/-- Replace one wire field of an envelope (recipient fields address block
`i`). -/
def tamper (env : Envelope) (i : Nat) (f : WireField) (s : String) : Envelope :=
  match f with
  | .ciphertext => { env with ciphertext := s }
  | .tag => { env with tag := s }
  | .iv => { env with iv := s }
  | _ =>
    match env.recipients.get? i with
    | none => env
    | some r => { env with recipients := env.recipients.set i (setRecipientField r f s) }

/-- The current value of a wire field. -/
def getField (env : Envelope) (i : Nat) (f : WireField) : String :=
  match f with
  | .ciphertext => env.ciphertext
  | .tag => env.tag
  | .iv => env.iv
  | _ =>
    match env.recipients.get? i with
    | none => ""
    | some r =>
      match f with
      | .encryptedKey => r.encryptedKey
      | .apu => r.header.apu
      | .recIV => r.header.iv
      | .recTag => r.header.tag
      | .kid => r.header.kid
      | .spk => r.header.spk
      | _ => ""

/-- Whether a `Decrypt` error message is a decode error or an AEAD
authentication error in the model's message taxonomy. -/
def isDecodeOrAuthMsg (m : String) : Bool :=
  ((msgStage ++ ": illegal base64 data at input byte ").data.isPrefixOf m.data) ||
  ((sharedStage ++ ": illegal base64 data at input byte ").data.isPrefixOf m.data) ||
  m == senderStage ++ ": bad SPK format" ||
  m == authFailMsg msgStage || m == authFailMsg senderStage || m == authFailMsg sharedStage ||
  m == sharedStage ++ ": bad nonce size" ||
  m == msgStage ++ ": invalid JSON format"

/-- A single-byte change: the two strings agree except at one position. -/
def OneFlip (s s2 : String) : Prop :=
  ∃ pre c c2 suf, c ≠ c2 ∧ s.data = pre ++ c :: suf ∧ s2.data = pre ++ c2 :: suf

theorem decryptSenderKey_congr {c : Crypter} {kp : KeyPair} {r1 r2 : Recipient}
    (h : r1.header.spk = r2.header.spk) :
    decryptSenderKey c kp r1 = decryptSenderKey c kp r2 := by
  unfold decryptSenderKey
  rw [h]

theorem decryptSharedKey_congr {c : Crypter} {kp : KeyPair} {sp : Bytes} {r1 r2 : Recipient}
    (h1 : r1.header.apu = r2.header.apu) (h2 : r1.header.iv = r2.header.iv)
    (h3 : r1.header.tag = r2.header.tag) (h4 : r1.encryptedKey = r2.encryptedKey) :
    decryptSharedKey c kp sp r1 = decryptSharedKey c kp sp r2 := by
  unfold decryptSharedKey
  rw [h1, h2, h3, h4]

theorem decryptPayload_congr {c : Crypter} {env1 env2 : Envelope} {cek : Bytes}
    (h1 : env1.ciphertext = env2.ciphertext) (h2 : env1.iv = env2.iv)
    (h3 : env1.tag = env2.tag) (h4 : env1.protectedHeader = env2.protectedHeader) :
    decryptPayload c env1 cek = decryptPayload c env2 cek := by
  unfold decryptPayload
  rw [h1, h2, h3, h4]

set_option maxRecDepth 100000 in
set_option maxHeartbeats 4000000 in
/-- Claim C3 (the code's actual behavior at the failing input): on an
`encrypt`-produced XC20P envelope whose content-level `iv` is replaced by a
valid base64url encoding of a 12-byte nonce, `Decrypt` aborts with the
underlying cipher's nonce-length panic instead of returning a recoverable
error — the behavior the test at authcrypt_test.go:380 pins and the spec
flags as a defect to fix. -/
theorem C3_content_nonce_panics :
    decrypt wC (tamper wEnv 0 WireField.iv (b64encodeStr (List.replicate 12 5))) wRec1 =
      DecResult.panicked ("chacha20poly1305: bad nonce length passed to Open") := by
  decide

set_option maxRecDepth 100000 in
set_option maxHeartbeats 4000000 in
/-- Counterexample to claim C8 as stated: a wrong-length recipient-header
`iv` at the CEK-unwrap step is caught by an explicit length check and
surfaces as the recoverable `bad nonce size` error (authcrypt_test.go:331),
not as the fatal nonce-length precondition violation of the underlying
cipher the claim asserts. -/
theorem C8_recipient_nonce_counterexample :
    decrypt wC (tamper wEnv 0 WireField.recIV (b64encodeStr (List.replicate 6 1))) wRec1 =
      DecResult.err (sharedStage ++ ": bad nonce size") := by
  decide

theorem find_zip_none {c : Crypter} {sender : KeyPair} {cek p : Bytes} :
    ∀ (pubs : List Bytes) (rrs : List RecipientRand), (∀ k ∈ pubs, IsBytes k) →
    IsBytes p → p ∉ pubs →
    ((pubs.zip rrs).map (mkRecipient c sender cek)).find?
      (fun r => r.header.kid == kidOf p) = none := by
  intro pubs rrs hB hp hnot
  rw [List.find?_eq_none]
  intro x hx
  obtain ⟨pr, hprmem, hpr⟩ := List.mem_map.mp hx
  have hkid : x.header.kid = kidOf pr.1 := by rw [← hpr]; rfl
  simp only [hkid]
  intro heq
  have heq2 : kidOf pr.1 = kidOf p := eq_of_beq heq
  have hmem1 : pr.1 ∈ pubs := (List.mem_zip hprmem).1
  have := kidOf_inj (hB pr.1 hmem1) hp heq2
  rw [this] at hmem1
  exact hnot hmem1

theorem find_set_eq {c : Crypter} {sender : KeyPair} {cek : Bytes} :
    ∀ (pubs : List Bytes) (rrs : List RecipientRand) (i : Nat) (hi : i < pubs.length),
    pubs.length = rrs.length → (∀ k ∈ pubs, IsBytes k) → pubs.Nodup →
    ∀ (block2 : Recipient), block2.header.kid = kidOf (pubs.get ⟨i, hi⟩) →
    ((((pubs.zip rrs).map (mkRecipient c sender cek)).set i block2).find?
      (fun r => r.header.kid == kidOf (pubs.get ⟨i, hi⟩))) = some block2 := by
  intro pubs
  induction pubs with
  | nil => intro rrs i hi; simp at hi
  | cons q pubs2 ih =>
    intro rrs i hi hlen hB hnodup block2 hkid
    cases rrs with
    | nil => simp at hlen
    | cons rr0 rrs2 =>
      cases i with
      | zero =>
        simp only [List.zip_cons_cons, List.map_cons, List.set_cons_zero]
        apply List.find?_cons_of_pos
        simp only [hkid]
        exact beq_self_eq_true _
      | succ j =>
        simp only [List.zip_cons_cons, List.map_cons, List.set_cons_succ]
        have hget : (q :: pubs2).get ⟨j + 1, hi⟩ = pubs2.get ⟨j, by simpa using hi⟩ := rfl
        rw [hget] at hkid ⊢
        have hqmem : pubs2.get ⟨j, by simpa using hi⟩ ∈ pubs2 := pubs2.get_mem _ _
        have hqne : q ≠ pubs2.get ⟨j, by simpa using hi⟩ := by
          intro heq
          have := (List.nodup_cons.mp hnodup).1
          rw [heq] at this
          exact this hqmem
        rw [List.find?_cons_of_neg]
        · exact ih rrs2 j (by simpa using hi) (by simpa using hlen)
            (fun k hk => hB k (by simp [hk])) (List.nodup_cons.mp hnodup).2 block2 hkid
        · simp only [mkRecipient]
          intro heq
          exact hqne (kidOf_inj (hB q (by simp)) (hB _ (by simp [hqmem])) (eq_of_beq heq))

theorem find_set_none {c : Crypter} {sender : KeyPair} {cek : Bytes} :
    ∀ (pubs : List Bytes) (rrs : List RecipientRand) (i : Nat) (hi : i < pubs.length),
    pubs.length = rrs.length → (∀ k ∈ pubs, IsBytes k) → pubs.Nodup →
    ∀ (block2 : Recipient), block2.header.kid ≠ kidOf (pubs.get ⟨i, hi⟩) →
    ((((pubs.zip rrs).map (mkRecipient c sender cek)).set i block2).find?
      (fun r => r.header.kid == kidOf (pubs.get ⟨i, hi⟩))) = none := by
  intro pubs
  induction pubs with
  | nil => intro rrs i hi; simp at hi
  | cons q pubs2 ih =>
    intro rrs i hi hlen hB hnodup block2 hkid
    cases rrs with
    | nil => simp at hlen
    | cons rr0 rrs2 =>
      cases i with
      | zero =>
        simp only [List.zip_cons_cons, List.map_cons, List.set_cons_zero]
        rw [List.find?_cons_of_neg]
        · have hq : q = (q :: pubs2).get ⟨0, hi⟩ := rfl
          apply find_zip_none pubs2 rrs2 (fun k hk => hB k (by simp [hk]))
            (hB _ (by rw [← hq]; simp))
          intro hmem
          have := (List.nodup_cons.mp hnodup).1
          rw [show (q :: pubs2).get ⟨0, hi⟩ = q from rfl] at hmem
          exact this hmem
        · intro heq
          exact hkid (eq_of_beq heq)
      | succ j =>
        simp only [List.zip_cons_cons, List.map_cons, List.set_cons_succ]
        have hget : (q :: pubs2).get ⟨j + 1, hi⟩ = pubs2.get ⟨j, by simpa using hi⟩ := rfl
        rw [hget] at hkid ⊢
        have hqmem : pubs2.get ⟨j, by simpa using hi⟩ ∈ pubs2 := pubs2.get_mem _ _
        have hqne : q ≠ pubs2.get ⟨j, by simpa using hi⟩ := by
          intro heq
          have := (List.nodup_cons.mp hnodup).1
          rw [heq] at this
          exact this hqmem
        rw [List.find?_cons_of_neg]
        · exact ih rrs2 j (by simpa using hi) (by simpa using hlen)
            (fun k hk => hB k (by simp [hk])) (List.nodup_cons.mp hnodup).2 block2 hkid
        · simp only [mkRecipient]
          intro heq
          exact hqne (kidOf_inj (hB q (by simp)) (hB _ (by simp [hqmem])) (eq_of_beq heq))

theorem zip_map_get? {c : Crypter} {sender : KeyPair} {cek : Bytes} :
    ∀ (pubs : List Bytes) (rrs : List RecipientRand) (i : Nat) (hi : i < pubs.length)
    (hr : i < rrs.length),
    ((pubs.zip rrs).map (mkRecipient c sender cek)).get? i =
      some (mkRecipient c sender cek (pubs.get ⟨i, hi⟩, rrs.get ⟨i, hr⟩)) := by
  intro pubs
  induction pubs with
  | nil => intro rrs i hi; simp at hi
  | cons q pubs2 ih =>
    intro rrs i hi hr
    cases rrs with
    | nil => simp at hr
    | cons rr0 rrs2 =>
      cases i with
      | zero => rfl
      | succ j =>
        simp only [List.zip_cons_cons, List.map_cons, List.get?_cons_succ]
        exact ih rrs2 j (by simpa using hi) (by simpa using hr)

theorem sharedKey_tamper_decodeErr {c : Crypter} {sender kp : KeyPair} {cek recPub : Bytes}
    {rr : RecipientRand} {f : WireField} {s m : String} (sp : Bytes)
    (hrr : ValidRecRand c.nonceSize rr)
    (hf : f = .encryptedKey ∨ f = .apu ∨ f = .recIV ∨ f = .recTag)
    (hm : b64decode s = .error m) :
    decryptSharedKey c kp sp (setRecipientField (mkRecipient c sender cek (recPub, rr)) f s) =
      .error (.err (sharedStage ++ ": " ++ m)) := by
  obtain ⟨hel, heb, hsl, hsb, hwl, hwb, hab⟩ := hrr
  rcases hf with hf | hf | hf | hf <;> subst hf
  · simp only [decryptSharedKey, setRecipientField, mkRecipient, decodeField,
      b64decode_encode hab, b64decode_encode hwb,
      b64decode_encode (sealTag_isBytes _ _ _ _), hm]
    rw [if_neg (by omega)]
  · simp only [decryptSharedKey, setRecipientField, mkRecipient, decodeField, hm]
  · simp only [decryptSharedKey, setRecipientField, mkRecipient, decodeField,
      b64decode_encode hab, hm]
  · simp only [decryptSharedKey, setRecipientField, mkRecipient, decodeField,
      b64decode_encode hab, b64decode_encode hwb, hm]
    rw [if_neg (by omega)]

theorem sharedKey_tamper_apu_ok {c : Crypter} {sender kp : KeyPair} {cek recPub : Bytes}
    {rr : RecipientRand} {s : String} {apu2 : Bytes}
    (hrr : ValidRecRand c.nonceSize rr) (hs : ValidKeyPair sender) (hk : ValidKeyPair kp)
    (hpub : kp.pub = recPub) (hcekB : IsBytes cek)
    (hdec : b64decode s = .ok apu2) (hne : apu2 ≠ rr.apu) :
    decryptSharedKey c kp sender.pub
      (setRecipientField (mkRecipient c sender cek (recPub, rr)) .apu s) =
      .error (.err (authFailMsg sharedStage)) := by
  obtain ⟨hel, heb, hsl, hsb, hwl, hwb, hab⟩ := hrr
  have hapu2B : IsBytes apu2 := (b64decode_strict hdec).2
  have hkey : dh kp.priv sender.pub = dh sender.priv recPub := by
    rw [hs.2.2, dh_comm kp.priv sender.priv, ← hk.2.2, hpub]
  simp only [decryptSharedKey, setRecipientField, mkRecipient, decodeField, hdec,
    b64decode_encode hwb, b64decode_encode (sealTag_isBytes _ _ _ _),
    b64decode_encode (sealCT_isBytes _ _ _)]
  rw [if_neg (by omega), hkey]
  have htag : sealTag (kwKey (dh sender.priv recPub) rr.apu) rr.kwNonce [] cek ≠
      macBytes (kwKey (dh sender.priv recPub) apu2) rr.kwNonce []
        (sealCT (kwKey (dh sender.priv recPub) rr.apu) rr.kwNonce cek) := by
    unfold sealTag
    intro heq
    have := macBytes_inj (kwKey_isBytes _ _) hwb (by intro b hb; simp at hb)
      (sealCT_isBytes _ _ _) (kwKey_isBytes _ _) hwb (by intro b hb; simp at hb)
      (sealCT_isBytes _ _ _) heq
    have hk2 := kwKey_inj (dh_isBytes _ _) hab (dh_isBytes _ _) hapu2B this.1
    exact hne hk2.2.symm
  rw [chachaOpen_authFail hwl htag]

theorem sharedKey_tamper_recIV_badsize {c : Crypter} {sender kp : KeyPair}
    {cek recPub : Bytes} {rr : RecipientRand} {s : String} {iv2 : Bytes} (sp : Bytes)
    (hrr : ValidRecRand c.nonceSize rr)
    (hdec : b64decode s = .ok iv2) (hlen : iv2.length ≠ c.nonceSize) :
    decryptSharedKey c kp sp
      (setRecipientField (mkRecipient c sender cek (recPub, rr)) .recIV s) =
      .error (.err (sharedStage ++ ": bad nonce size")) := by
  obtain ⟨hel, heb, hsl, hsb, hwl, hwb, hab⟩ := hrr
  simp only [decryptSharedKey, setRecipientField, mkRecipient, decodeField, hdec,
    b64decode_encode hab]
  rw [if_pos hlen]

theorem sharedKey_tamper_recIV_ok {c : Crypter} {sender kp : KeyPair} {cek recPub : Bytes}
    {rr : RecipientRand} {s : String} {iv2 : Bytes}
    (hrr : ValidRecRand c.nonceSize rr) (hs : ValidKeyPair sender) (hk : ValidKeyPair kp)
    (hpub : kp.pub = recPub) (hcekB : IsBytes cek)
    (hdec : b64decode s = .ok iv2) (hlen : iv2.length = c.nonceSize)
    (hne : iv2 ≠ rr.kwNonce) :
    decryptSharedKey c kp sender.pub
      (setRecipientField (mkRecipient c sender cek (recPub, rr)) .recIV s) =
      .error (.err (authFailMsg sharedStage)) := by
  obtain ⟨hel, heb, hsl, hsb, hwl, hwb, hab⟩ := hrr
  have hiv2B : IsBytes iv2 := (b64decode_strict hdec).2
  have hkey : dh kp.priv sender.pub = dh sender.priv recPub := by
    rw [hs.2.2, dh_comm kp.priv sender.priv, ← hk.2.2, hpub]
  simp only [decryptSharedKey, setRecipientField, mkRecipient, decodeField, hdec,
    b64decode_encode hab, b64decode_encode (sealTag_isBytes _ _ _ _),
    b64decode_encode (sealCT_isBytes _ _ _)]
  rw [if_neg (by omega), hkey]
  have htag : sealTag (kwKey (dh sender.priv recPub) rr.apu) rr.kwNonce [] cek ≠
      macBytes (kwKey (dh sender.priv recPub) rr.apu) iv2 []
        (sealCT (kwKey (dh sender.priv recPub) rr.apu) rr.kwNonce cek) := by
    unfold sealTag
    intro heq
    have := macBytes_inj (kwKey_isBytes _ _) hwb (by intro b hb; simp at hb)
      (sealCT_isBytes _ _ _) (kwKey_isBytes _ _) hiv2B (by intro b hb; simp at hb)
      (sealCT_isBytes _ _ _) heq
    exact hne this.2.1.symm
  rw [chachaOpen_authFail (by omega) htag]

theorem sharedKey_tamper_recTag_ok {c : Crypter} {sender kp : KeyPair} {cek recPub : Bytes}
    {rr : RecipientRand} {s : String} {t2 : Bytes}
    (hrr : ValidRecRand c.nonceSize rr) (hs : ValidKeyPair sender) (hk : ValidKeyPair kp)
    (hpub : kp.pub = recPub) (hcekB : IsBytes cek)
    (hdec : b64decode s = .ok t2)
    (hne : t2 ≠ sealTag (kwKey (dh sender.priv recPub) rr.apu) rr.kwNonce [] cek) :
    decryptSharedKey c kp sender.pub
      (setRecipientField (mkRecipient c sender cek (recPub, rr)) .recTag s) =
      .error (.err (authFailMsg sharedStage)) := by
  obtain ⟨hel, heb, hsl, hsb, hwl, hwb, hab⟩ := hrr
  have hkey : dh kp.priv sender.pub = dh sender.priv recPub := by
    rw [hs.2.2, dh_comm kp.priv sender.priv, ← hk.2.2, hpub]
  simp only [decryptSharedKey, setRecipientField, mkRecipient, decodeField, hdec,
    b64decode_encode hab, b64decode_encode hwb, b64decode_encode (sealCT_isBytes _ _ _)]
  rw [if_neg (by omega), hkey]
  have htag : t2 ≠
      macBytes (kwKey (dh sender.priv recPub) rr.apu) rr.kwNonce []
        (sealCT (kwKey (dh sender.priv recPub) rr.apu) rr.kwNonce cek) := by
    intro heq
    exact hne (by rw [heq]; rfl)
  rw [chachaOpen_authFail hwl htag]

theorem sharedKey_tamper_ek_ok {c : Crypter} {sender kp : KeyPair} {cek recPub : Bytes}
    {rr : RecipientRand} {s : String} {e2 : Bytes}
    (hrr : ValidRecRand c.nonceSize rr) (hs : ValidKeyPair sender) (hk : ValidKeyPair kp)
    (hpub : kp.pub = recPub) (hcekB : IsBytes cek)
    (hdec : b64decode s = .ok e2)
    (hne : e2 ≠ sealCT (kwKey (dh sender.priv recPub) rr.apu) rr.kwNonce cek) :
    decryptSharedKey c kp sender.pub
      (setRecipientField (mkRecipient c sender cek (recPub, rr)) .encryptedKey s) =
      .error (.err (authFailMsg sharedStage)) := by
  obtain ⟨hel, heb, hsl, hsb, hwl, hwb, hab⟩ := hrr
  have he2B : IsBytes e2 := (b64decode_strict hdec).2
  have hkey : dh kp.priv sender.pub = dh sender.priv recPub := by
    rw [hs.2.2, dh_comm kp.priv sender.priv, ← hk.2.2, hpub]
  simp only [decryptSharedKey, setRecipientField, mkRecipient, decodeField, hdec,
    b64decode_encode hab, b64decode_encode hwb, b64decode_encode (sealTag_isBytes _ _ _ _)]
  rw [if_neg (by omega), hkey]
  have htag : sealTag (kwKey (dh sender.priv recPub) rr.apu) rr.kwNonce [] cek ≠
      macBytes (kwKey (dh sender.priv recPub) rr.apu) rr.kwNonce [] e2 := by
    unfold sealTag
    intro heq
    have := macBytes_inj (kwKey_isBytes _ _) hwb (by intro b hb; simp at hb)
      (sealCT_isBytes _ _ _) (kwKey_isBytes _ _) hwb (by intro b hb; simp at hb) he2B heq
    exact hne this.2.2.2.symm
  rw [chachaOpen_authFail hwl htag]

theorem decrypt_tamper_rec_eq {alg : String} {c : Crypter} {sender : KeyPair} {pt : Bytes}
    {recs : List KeyPair} {rnd : EncRand}
    (hnew : New alg = .ok c) (hsend : ValidKeyPair sender)
    (hrecs : ∀ k ∈ recs, ValidKeyPair k)
    (hnodup : (recs.map (fun k => k.pub)).Nodup)
    (hrnd : ValidEncRand c.nonceSize recs.length rnd)
    (i : Nat) (hi : i < recs.length) (hir : i < rnd.recs.length)
    (f : WireField)
    (hf : f = .encryptedKey ∨ f = .apu ∨ f = .recIV ∨ f = .recTag ∨ f = .spk)
    (s : String)
    (hkid : (setRecipientField (mkRecipient c sender rnd.cek
        ((recs.get ⟨i, hi⟩).pub, rnd.recs.get ⟨i, hir⟩)) f s).header.kid =
        kidOf (recs.get ⟨i, hi⟩).pub) :
    decrypt c (tamper (envOf c pt sender (recs.map (fun k => k.pub)) rnd) i f s)
        (recs.get ⟨i, hi⟩) =
      (match decryptSenderKey c (recs.get ⟨i, hi⟩)
          (setRecipientField (mkRecipient c sender rnd.cek
            ((recs.get ⟨i, hi⟩).pub, rnd.recs.get ⟨i, hir⟩)) f s) with
       | .error e => e
       | .ok sp =>
         match decryptSharedKey c (recs.get ⟨i, hi⟩) sp
             (setRecipientField (mkRecipient c sender rnd.cek
               ((recs.get ⟨i, hi⟩).pub, rnd.recs.get ⟨i, hir⟩)) f s) with
         | .error e => e
         | .ok cek =>
           decryptPayload c (envOf c pt sender (recs.map (fun k => k.pub)) rnd) cek) := by
  have hkv : ValidKeyPair (recs.get ⟨i, hi⟩) := hrecs _ (recs.get_mem i hi)
  have him : i < (recs.map (fun k => k.pub)).length := by simpa using hi
  have hmapget : (recs.map (fun k => k.pub)).get ⟨i, him⟩ = (recs.get ⟨i, hi⟩).pub := by
    simp [List.get_map]
  have hrecB : ∀ k ∈ recs.map (fun k => k.pub), IsBytes k := by
    intro k hk
    obtain ⟨kp, hkpmem, hkp⟩ := List.mem_map.mp hk
    rw [← hkp]
    exact (hrecs kp hkpmem).pubBytes
  have hget? := @zip_map_get? c sender rnd.cek (recs.map (fun k => k.pub)) rnd.recs i him hir
  rw [hmapget] at hget?
  have htamper : tamper (envOf c pt sender (recs.map (fun k => k.pub)) rnd) i f s =
      { envOf c pt sender (recs.map (fun k => k.pub)) rnd with
        recipients := ((recs.map (fun k => k.pub)).zip rnd.recs).map
            (mkRecipient c sender rnd.cek) |>.set i
          (setRecipientField (mkRecipient c sender rnd.cek
            ((recs.get ⟨i, hi⟩).pub, rnd.recs.get ⟨i, hir⟩)) f s) } := by
    rcases hf with hf | hf | hf | hf | hf <;> subst hf <;>
      simp only [tamper, envOf] at hget? ⊢ <;> rw [hget?]
  rw [htamper]
  have hfind : findRecipient
      { envOf c pt sender (recs.map (fun k => k.pub)) rnd with
        recipients := ((recs.map (fun k => k.pub)).zip rnd.recs).map
            (mkRecipient c sender rnd.cek) |>.set i
          (setRecipientField (mkRecipient c sender rnd.cek
            ((recs.get ⟨i, hi⟩).pub, rnd.recs.get ⟨i, hir⟩)) f s) }
      (recs.get ⟨i, hi⟩) =
      some (setRecipientField (mkRecipient c sender rnd.cek
        ((recs.get ⟨i, hi⟩).pub, rnd.recs.get ⟨i, hir⟩)) f s) := by
    unfold findRecipient
    rw [if_neg (by
      simp only [List.isEmpty_iff]
      intro hemp
      have := hkv.pubLen
      rw [hemp] at this
      simp at this)]
    have := @find_set_eq c sender rnd.cek (recs.map (fun k => k.pub)) rnd.recs i him
      (by simpa [hrnd.2.2.2.2.1] using rfl) hrecB hnodup
      (setRecipientField (mkRecipient c sender rnd.cek
        ((recs.get ⟨i, hi⟩).pub, rnd.recs.get ⟨i, hir⟩)) f s)
      (by rw [hmapget]; exact hkid)
    rw [hmapget] at this
    exact this
  have hstep : decrypt c
      { envOf c pt sender (recs.map (fun k => k.pub)) rnd with
        recipients := ((recs.map (fun k => k.pub)).zip rnd.recs).map
            (mkRecipient c sender rnd.cek) |>.set i
          (setRecipientField (mkRecipient c sender rnd.cek
            ((recs.get ⟨i, hi⟩).pub, rnd.recs.get ⟨i, hir⟩)) f s) }
      (recs.get ⟨i, hi⟩) =
      (match decryptSenderKey c (recs.get ⟨i, hi⟩)
          (setRecipientField (mkRecipient c sender rnd.cek
            ((recs.get ⟨i, hi⟩).pub, rnd.recs.get ⟨i, hir⟩)) f s) with
       | .error e => e
       | .ok sp =>
         match decryptSharedKey c (recs.get ⟨i, hi⟩) sp
             (setRecipientField (mkRecipient c sender rnd.cek
               ((recs.get ⟨i, hi⟩).pub, rnd.recs.get ⟨i, hir⟩)) f s) with
         | .error e => e
         | .ok cek =>
           decryptPayload c
             { envOf c pt sender (recs.map (fun k => k.pub)) rnd with
               recipients := ((recs.map (fun k => k.pub)).zip rnd.recs).map
                   (mkRecipient c sender rnd.cek) |>.set i
                 (setRecipientField (mkRecipient c sender rnd.cek
                   ((recs.get ⟨i, hi⟩).pub, rnd.recs.get ⟨i, hir⟩)) f s) } cek) := by
    unfold decrypt
    rw [hfind]
  rw [hstep]
  cases decryptSenderKey c (recs.get ⟨i, hi⟩)
      (setRecipientField (mkRecipient c sender rnd.cek
        ((recs.get ⟨i, hi⟩).pub, rnd.recs.get ⟨i, hir⟩)) f s) with
  | error e => rfl
  | ok sp =>
    cases decryptSharedKey c (recs.get ⟨i, hi⟩) sp
        (setRecipientField (mkRecipient c sender rnd.cek
          ((recs.get ⟨i, hi⟩).pub, rnd.recs.get ⟨i, hir⟩)) f s) with
    | error e => rfl
    | ok cek => exact rfl

/-- Claim C8 (amended): in `Decrypt`'s CEK-unwrap step, a recipient-header
`iv` decoding to a nonce of the wrong length is caught by an explicit
length check and returns the recoverable error
`failed to decrypt shared key: bad nonce size` (the fatal nonce-length
abort of the underlying cipher arises only at the content-open step, claim
C3), while an AEAD authentication failure at this step yields
`failed to decrypt shared key: chacha20poly1305: message authentication
failed`. -/
theorem C8_bad_nonce_size (alg : String) (c : Crypter) (hnew : New alg = .ok c)
    (sender : KeyPair) (hsend : ValidKeyPair sender) (pt : Bytes)
    (recs : List KeyPair) (hrecs : ∀ k ∈ recs, ValidKeyPair k)
    (hnodup : (recs.map (fun k => k.pub)).Nodup)
    (rnd : EncRand) (hrnd : ValidEncRand c.nonceSize recs.length rnd)
    (i : Nat) (hi : i < recs.length) (hir : i < rnd.recs.length) :
    (∀ (s : String) (iv2 : Bytes), b64decode s = .ok iv2 → iv2.length ≠ c.nonceSize →
      decrypt c (tamper (envOf c pt sender (recs.map (fun k => k.pub)) rnd) i
          WireField.recIV s) (recs.get ⟨i, hi⟩) =
        .err (sharedStage ++ ": bad nonce size")) ∧
    (∀ (s : String) (t2 : Bytes), b64decode s = .ok t2 →
      t2 ≠ sealTag (kwKey (dh sender.priv (recs.get ⟨i, hi⟩).pub)
          (rnd.recs.get ⟨i, hir⟩).apu) (rnd.recs.get ⟨i, hir⟩).kwNonce [] rnd.cek →
      decrypt c (tamper (envOf c pt sender (recs.map (fun k => k.pub)) rnd) i
          WireField.recTag s) (recs.get ⟨i, hi⟩) =
        .err (authFailMsg sharedStage)) := by
  have hkv : ValidKeyPair (recs.get ⟨i, hi⟩) := hrecs _ (recs.get_mem i hi)
  have hrrv : ValidRecRand c.nonceSize (rnd.recs.get ⟨i, hir⟩) :=
    hrnd.2.2.2.2.2 _ (rnd.recs.get_mem i hir)
  constructor
  · intro s iv2 hdec hlen
    rw [decrypt_tamper_rec_eq hnew hsend hrecs hnodup hrnd i hi hir WireField.recIV
      (by simp) s rfl]
    have hsk : decryptSenderKey c (recs.get ⟨i, hi⟩)
        (setRecipientField (mkRecipient c sender rnd.cek
          ((recs.get ⟨i, hi⟩).pub, rnd.recs.get ⟨i, hir⟩)) WireField.recIV s) =
        .ok sender.pub := by
      have hcongr : decryptSenderKey c (recs.get ⟨i, hi⟩)
          (setRecipientField (mkRecipient c sender rnd.cek
            ((recs.get ⟨i, hi⟩).pub, rnd.recs.get ⟨i, hir⟩)) WireField.recIV s) =
          decryptSenderKey c (recs.get ⟨i, hi⟩)
            (mkRecipient c sender rnd.cek
              ((recs.get ⟨i, hi⟩).pub, rnd.recs.get ⟨i, hir⟩)) :=
        decryptSenderKey_congr rfl
      rw [hcongr]
      exact decryptSenderKey_mk hrrv hsend hkv rfl
    have hshk := @sharedKey_tamper_recIV_badsize c sender (recs.get ⟨i, hi⟩) rnd.cek
      ((recs.get ⟨i, hi⟩).pub) (rnd.recs.get ⟨i, hir⟩) s iv2 sender.pub hrrv hdec hlen
    simp only [hsk, hshk]
  · intro s t2 hdec hne
    rw [decrypt_tamper_rec_eq hnew hsend hrecs hnodup hrnd i hi hir WireField.recTag
      (by simp) s rfl]
    have hsk : decryptSenderKey c (recs.get ⟨i, hi⟩)
        (setRecipientField (mkRecipient c sender rnd.cek
          ((recs.get ⟨i, hi⟩).pub, rnd.recs.get ⟨i, hir⟩)) WireField.recTag s) =
        .ok sender.pub := by
      have hcongr : decryptSenderKey c (recs.get ⟨i, hi⟩)
          (setRecipientField (mkRecipient c sender rnd.cek
            ((recs.get ⟨i, hi⟩).pub, rnd.recs.get ⟨i, hir⟩)) WireField.recTag s) =
          decryptSenderKey c (recs.get ⟨i, hi⟩)
            (mkRecipient c sender rnd.cek
              ((recs.get ⟨i, hi⟩).pub, rnd.recs.get ⟨i, hir⟩)) :=
        decryptSenderKey_congr rfl
      rw [hcongr]
      exact decryptSenderKey_mk hrrv hsend hkv rfl
    have hshk := sharedKey_tamper_recTag_ok hrrv hsend hkv rfl hrnd.2.1 hdec hne
    simp only [hsk, hshk]

deriving instance DecidableEq for Except

theorem C8_bad_nonce_size_witness :
    decrypt wC (tamper wEnv 0 WireField.recTag (b64encodeStr (List.replicate 16 3)))
        ([wRec1, wRec2].get ⟨0, by decide⟩) =
      DecResult.err (authFailMsg sharedStage) := by
  exact (C8_bad_nonce_size XC20P wC (by rfl) wSender (by decide) wPT [wRec1, wRec2]
    (by decide) (by decide) wRnd (by decide) 0 (by decide) (by decide)).2
    (b64encodeStr (List.replicate 16 3)) (List.replicate 16 3) (by decide) (by decide)

theorem findRecipient_congr {env1 env2 : Envelope} {kp : KeyPair}
    (h : env1.recipients = env2.recipients) :
    findRecipient env1 kp = findRecipient env2 kp := by
  unfold findRecipient
  rw [h]

theorem decrypt_tamper_content_eq {alg : String} {c : Crypter} {sender : KeyPair}
    {pt : Bytes} {recs : List KeyPair} {rnd : EncRand}
    (hnew : New alg = .ok c) (hsend : ValidKeyPair sender)
    (hrecs : ∀ k ∈ recs, ValidKeyPair k)
    (hrnd : ValidEncRand c.nonceSize recs.length rnd)
    (i : Nat) (hi : i < recs.length) (f : WireField)
    (hf : f = .ciphertext ∨ f = .tag ∨ f = .iv) (s : String) :
    decrypt c (tamper (envOf c pt sender (recs.map (fun k => k.pub)) rnd) i f s)
        (recs.get ⟨i, hi⟩) =
      decryptPayload c (tamper (envOf c pt sender (recs.map (fun k => k.pub)) rnd) i f s)
        rnd.cek := by
  have hkv : ValidKeyPair (recs.get ⟨i, hi⟩) := hrecs _ (recs.get_mem i hi)
  have hrecB : ∀ k ∈ recs.map (fun k => k.pub), IsBytes k := by
    intro k hk
    obtain ⟨kp, hkpmem, hkp⟩ := List.mem_map.mp hk
    rw [← hkp]
    exact (hrecs kp hkpmem).pubBytes
  have hmem : (recs.get ⟨i, hi⟩).pub ∈ recs.map (fun k => k.pub) :=
    List.mem_map.mpr ⟨recs.get ⟨i, hi⟩, recs.get_mem i hi, rfl⟩
  obtain ⟨rr, hrrmem, hfind⟩ := @findRecipient_envOf c pt sender
    (recs.map (fun k => k.pub)) rnd (recs.get ⟨i, hi⟩)
    (by simp [hrnd.2.2.2.2.1]) hrecB hkv.pubBytes hmem
    (by
      intro hemp
      have := hkv.pubLen
      rw [hemp] at this
      simp at this)
  have hrec_eq : (tamper (envOf c pt sender (recs.map (fun k => k.pub)) rnd) i f s).recipients =
      (envOf c pt sender (recs.map (fun k => k.pub)) rnd).recipients := by
    rcases hf with hf | hf | hf <;> subst hf <;> rfl
  have hfind2 : findRecipient
      (tamper (envOf c pt sender (recs.map (fun k => k.pub)) rnd) i f s)
      (recs.get ⟨i, hi⟩) =
      some (mkRecipient c sender rnd.cek ((recs.get ⟨i, hi⟩).pub, rr)) := by
    rw [findRecipient_congr hrec_eq]
    exact hfind
  have hsk := @decryptSenderKey_mk c sender (recs.get ⟨i, hi⟩) rnd.cek
    ((recs.get ⟨i, hi⟩).pub) rr (hrnd.2.2.2.2.2 rr hrrmem) hsend hkv rfl
  have hshk := @decryptSharedKey_mk c sender (recs.get ⟨i, hi⟩) rnd.cek
    ((recs.get ⟨i, hi⟩).pub) rr (hrnd.2.2.2.2.2 rr hrrmem) hsend hkv rfl hrnd.2.1
  simp only [decrypt, hfind2, hsk, hshk]


theorem b64Table_lt256 : ∀ c ∈ b64Table, c.toNat < 256 := by decide

theorem b64CharOf_toNat_lt (v : Nat) : (b64CharOf v).toNat < 256 := by
  unfold b64CharOf
  rcases Nat.lt_or_ge v b64Table.length with h | h
  · have hmem : b64Table.getD v 'A' ∈ b64Table := by
      rw [List.getD_eq_getElem?_getD, List.getElem?_eq_getElem h]
      simp
    exact b64Table_lt256 _ hmem
  · have hd : b64Table.getD v 'A' = 'A' := by
      rw [List.getD_eq_getElem?_getD, List.getElem?_eq_none h]
      rfl
    rw [hd]
    decide

theorem strToBytes_b64encodeStr_isBytes (b : Bytes) :
    IsBytes (strToBytes (b64encodeStr b)) := by
  intro x hx
  obtain ⟨ch, hch, hx2⟩ := List.mem_map.mp hx
  have hdata : (b64encodeStr b).data = (b64e b).map b64CharOf := rfl
  rw [hdata] at hch
  obtain ⟨v, _, hv⟩ := List.mem_map.mp hch
  rw [← hx2, ← hv]
  exact b64CharOf_toNat_lt v

theorem protected_isBytes (alg : String) : IsBytes (strToBytes (protectedOf alg)) :=
  strToBytes_b64encodeStr_isBytes _

theorem payload_tamper_decodeErr {c : Crypter} {pt : Bytes} {sender : KeyPair}
    {pubs : List Bytes} {rnd : EncRand} {i : Nat} {f : WireField} {s m : String}
    (hivB : IsBytes rnd.iv) (hf : f = .ciphertext ∨ f = .tag ∨ f = .iv)
    (hm : b64decode s = .error m) :
    decryptPayload c (tamper (envOf c pt sender pubs rnd) i f s) rnd.cek =
      .err (msgStage ++ ": " ++ m) := by
  rcases hf with hf | hf | hf <;> subst hf
  · simp only [decryptPayload, tamper, envOf, decodeField, hm]
  · simp only [decryptPayload, tamper, envOf, decodeField, hm,
      b64decode_encode (sealCT_isBytes _ _ _), b64decode_encode hivB]
  · simp only [decryptPayload, tamper, envOf, decodeField, hm,
      b64decode_encode (sealCT_isBytes _ _ _)]

theorem payload_tamper_ct_auth {c : Crypter} {pt : Bytes} {sender : KeyPair}
    {pubs : List Bytes} {rnd : EncRand} {i : Nat} {s : String} {ct2 : Bytes}
    (hivl : rnd.iv.length = c.nonceSize) (hivB : IsBytes rnd.iv)
    (hcekB : IsBytes rnd.cek) (hdec : b64decode s = .ok ct2)
    (hne : ct2 ≠ sealCT rnd.cek rnd.iv pt) :
    decryptPayload c (tamper (envOf c pt sender pubs rnd) i WireField.ciphertext s)
        rnd.cek = .err (authFailMsg msgStage) := by
  have hct2B : IsBytes ct2 := (b64decode_strict hdec).2
  simp only [decryptPayload, tamper, envOf, decodeField, hdec,
    b64decode_encode hivB, b64decode_encode (sealTag_isBytes _ _ _ _)]
  have htag : sealTag rnd.cek rnd.iv (strToBytes (protectedOf c.alg)) pt ≠
      macBytes rnd.cek rnd.iv (strToBytes (protectedOf c.alg)) ct2 := by
    intro heq
    unfold sealTag at heq
    have h2 := macBytes_inj hcekB hivB (protected_isBytes _) (sealCT_isBytes _ _ _)
      hcekB hivB (protected_isBytes _) hct2B heq
    exact hne h2.2.2.2.symm
  rw [chachaOpen_authFail hivl htag]

theorem payload_tamper_tag_auth {c : Crypter} {pt : Bytes} {sender : KeyPair}
    {pubs : List Bytes} {rnd : EncRand} {i : Nat} {s : String} {t2 : Bytes}
    (hivl : rnd.iv.length = c.nonceSize) (hivB : IsBytes rnd.iv)
    (hdec : b64decode s = .ok t2)
    (hne : t2 ≠ sealTag rnd.cek rnd.iv (strToBytes (protectedOf c.alg)) pt) :
    decryptPayload c (tamper (envOf c pt sender pubs rnd) i WireField.tag s)
        rnd.cek = .err (authFailMsg msgStage) := by
  simp only [decryptPayload, tamper, envOf, decodeField, hdec,
    b64decode_encode hivB, b64decode_encode (sealCT_isBytes _ _ _)]
  have htag : t2 ≠ macBytes rnd.cek rnd.iv (strToBytes (protectedOf c.alg))
      (sealCT rnd.cek rnd.iv pt) := hne
  rw [chachaOpen_authFail hivl htag]

theorem payload_tamper_iv_auth {c : Crypter} {pt : Bytes} {sender : KeyPair}
    {pubs : List Bytes} {rnd : EncRand} {i : Nat} {s : String} {iv2 : Bytes}
    (hivB : IsBytes rnd.iv) (hcekB : IsBytes rnd.cek)
    (hdec : b64decode s = .ok iv2) (hlen : iv2.length = c.nonceSize)
    (hne : iv2 ≠ rnd.iv) :
    decryptPayload c (tamper (envOf c pt sender pubs rnd) i WireField.iv s)
        rnd.cek = .err (authFailMsg msgStage) := by
  have hiv2B : IsBytes iv2 := (b64decode_strict hdec).2
  simp only [decryptPayload, tamper, envOf, decodeField, hdec,
    b64decode_encode (sealCT_isBytes _ _ _), b64decode_encode (sealTag_isBytes _ _ _ _)]
  have htag : sealTag rnd.cek rnd.iv (strToBytes (protectedOf c.alg)) pt ≠
      macBytes rnd.cek iv2 (strToBytes (protectedOf c.alg))
        (sealCT rnd.cek rnd.iv pt) := by
    intro heq
    unfold sealTag at heq
    have h2 := macBytes_inj hcekB hivB (protected_isBytes _) (sealCT_isBytes _ _ _)
      hcekB hiv2B (protected_isBytes _) (sealCT_isBytes _ _ _) heq
    exact hne h2.2.1.symm
  rw [chachaOpen_authFail hlen htag]

theorem senderKey_tamper_spk {c : Crypter} {sender kp : KeyPair} {cek recPub : Bytes}
    {rr : RecipientRand} {s : String}
    (hparse : spkParse c.nonceSize s = none) :
    decryptSenderKey c kp
        (setRecipientField (mkRecipient c sender cek (recPub, rr)) WireField.spk s) =
      .error (.err (senderStage ++ ": bad SPK format")) := by
  simp only [decryptSenderKey, setRecipientField, hparse]

/-- C7: whenever a wire field holds malformed base64 (or the envelope is not
JSON), `Decrypt` fails with a decode error naming the stage: the content
fields `ciphertext`/`iv`/`tag` report "failed to decrypt message", an
unparseable `spk` sub-envelope reports "failed to decrypt sender key: bad
SPK format", the recipient header fields `encrypted_key`/`apu`/`iv`/`tag`
report "failed to decrypt shared key", and non-JSON input reports "failed
to decrypt message: invalid JSON format". -/
theorem C7_decode_error_stage (alg : String) (c : Crypter) (hnew : New alg = .ok c)
    (sender : KeyPair) (hsend : ValidKeyPair sender) (pt : Bytes)
    (recs : List KeyPair) (hrecs : ∀ k ∈ recs, ValidKeyPair k)
    (hnodup : (recs.map (fun k => k.pub)).Nodup)
    (rnd : EncRand) (hrnd : ValidEncRand c.nonceSize recs.length rnd)
    (i : Nat) (hi : i < recs.length) (hir : i < rnd.recs.length) :
    (∀ (f : WireField) (s m : String),
      (f = WireField.ciphertext ∨ f = WireField.tag ∨ f = WireField.iv) →
      b64decode s = .error m →
      decrypt c (tamper (envOf c pt sender (recs.map (fun k => k.pub)) rnd) i f s)
          (recs.get ⟨i, hi⟩) = .err (msgStage ++ ": " ++ m)) ∧
    (∀ (f : WireField) (s m : String),
      (f = WireField.encryptedKey ∨ f = WireField.apu ∨
        f = WireField.recIV ∨ f = WireField.recTag) →
      b64decode s = .error m →
      decrypt c (tamper (envOf c pt sender (recs.map (fun k => k.pub)) rnd) i f s)
          (recs.get ⟨i, hi⟩) = .err (sharedStage ++ ": " ++ m)) ∧
    (∀ s : String, spkParse c.nonceSize s = none →
      decrypt c (tamper (envOf c pt sender (recs.map (fun k => k.pub)) rnd) i
          WireField.spk s) (recs.get ⟨i, hi⟩) =
        .err (senderStage ++ ": bad SPK format")) ∧
    (∀ kp : KeyPair, decryptRaw c none kp = .err (msgStage ++ ": invalid JSON format")) := by
  have hkv : ValidKeyPair (recs.get ⟨i, hi⟩) := hrecs _ (recs.get_mem i hi)
  have hrrv : ValidRecRand c.nonceSize (rnd.recs.get ⟨i, hir⟩) :=
    hrnd.2.2.2.2.2 _ (rnd.recs.get_mem i hir)
  refine ⟨?_, ?_, ?_, ?_⟩
  · intro f s m hf hm
    rw [decrypt_tamper_content_eq hnew hsend hrecs hrnd i hi f hf s]
    exact payload_tamper_decodeErr hrnd.2.2.2.1 hf hm
  · intro f s m hf hm
    have hf5 : f = WireField.encryptedKey ∨ f = WireField.apu ∨ f = WireField.recIV ∨
        f = WireField.recTag ∨ f = WireField.spk := by
      rcases hf with h | h | h | h
      · exact Or.inl h
      · exact Or.inr (Or.inl h)
      · exact Or.inr (Or.inr (Or.inl h))
      · exact Or.inr (Or.inr (Or.inr (Or.inl h)))
    have hkid : (setRecipientField (mkRecipient c sender rnd.cek
        ((recs.get ⟨i, hi⟩).pub, rnd.recs.get ⟨i, hir⟩)) f s).header.kid =
        kidOf (recs.get ⟨i, hi⟩).pub := by
      rcases hf with h | h | h | h <;> subst h <;> rfl
    rw [decrypt_tamper_rec_eq hnew hsend hrecs hnodup hrnd i hi hir f hf5 s hkid]
    have hsk : decryptSenderKey c (recs.get ⟨i, hi⟩)
        (setRecipientField (mkRecipient c sender rnd.cek
          ((recs.get ⟨i, hi⟩).pub, rnd.recs.get ⟨i, hir⟩)) f s) =
        .ok sender.pub := by
      have hspk : (setRecipientField (mkRecipient c sender rnd.cek
          ((recs.get ⟨i, hi⟩).pub, rnd.recs.get ⟨i, hir⟩)) f s).header.spk =
          (mkRecipient c sender rnd.cek
            ((recs.get ⟨i, hi⟩).pub, rnd.recs.get ⟨i, hir⟩)).header.spk := by
        rcases hf with h | h | h | h <;> subst h <;> rfl
      rw [decryptSenderKey_congr hspk]
      exact decryptSenderKey_mk hrrv hsend hkv rfl
    have hshk := @sharedKey_tamper_decodeErr c sender (recs.get ⟨i, hi⟩) rnd.cek
      ((recs.get ⟨i, hi⟩).pub) (rnd.recs.get ⟨i, hir⟩) f s m sender.pub hrrv hf hm
    simp only [hsk, hshk]
  · intro s hparse
    rw [decrypt_tamper_rec_eq hnew hsend hrecs hnodup hrnd i hi hir WireField.spk
      (by simp) s rfl]
    have hsk := @senderKey_tamper_spk c sender (recs.get ⟨i, hi⟩) rnd.cek
      ((recs.get ⟨i, hi⟩).pub) (rnd.recs.get ⟨i, hir⟩) s hparse
    simp only [hsk]
  · intro kp
    rfl

theorem C7_decode_error_stage_witness :
    decrypt wC (tamper wEnv 0 WireField.ciphertext "!!")
        ([wRec1, wRec2].get ⟨0, by decide⟩) =
      DecResult.err (msgStage ++ ": " ++ "illegal base64 data at input byte 0") := by
  exact (C7_decode_error_stage XC20P wC (by rfl) wSender (by decide) wPT [wRec1, wRec2]
    (by decide) (by decide) wRnd (by decide) 0 (by decide) (by decide)).1
    WireField.ciphertext "!!" "illegal base64 data at input byte 0" (by simp) (by decide)

theorem OneFlip_length {s s2 : String} (h : OneFlip s s2) : s.length = s2.length := by
  obtain ⟨pre, c, c2, suf, hne, h1, h2⟩ := h
  have hd : s.data.length = s2.data.length := by rw [h1, h2]; simp
  exact hd

theorem OneFlip_ne {s s2 : String} (h : OneFlip s s2) : s ≠ s2 := by
  obtain ⟨pre, c, c2, suf, hne, h1, h2⟩ := h
  intro heq
  have h3 : pre ++ c :: suf = pre ++ c2 :: suf := by rw [← h1, heq, h2]
  have h4 := List.append_cancel_left h3
  exact hne (List.cons.injEq .. ▸ h4).1

theorem splitDots_cons_dot (t : List Char) : splitDots ('.' :: t) = [] :: splitDots t := by
  cases h : splitDots t with
  | nil => exact absurd h (splitDots_ne_nil t)
  | cons hd r => simp [splitDots, h]

theorem splitDots_cons_nondot {a : Char} (ha : a ≠ '.') {t hd : List Char}
    {r : List (List Char)} (h : splitDots t = hd :: r) :
    splitDots (a :: t) = (a :: hd) :: r := by
  simp only [splitDots, h, if_neg ha]

theorem splitDots_count : ∀ (cs : List Char), (splitDots cs).length = cs.count '.' + 1 := by
  intro cs
  induction cs with
  | nil => simp [splitDots]
  | cons c t ih =>
    cases h : splitDots t with
    | nil => exact absurd h (splitDots_ne_nil t)
    | cons hd r =>
      rw [h] at ih
      simp only [List.length_cons] at ih
      by_cases hc : c = '.'
      · subst hc
        rw [splitDots_cons_dot, h, List.count_cons_self]
        simp only [List.length_cons]
        omega
      · rw [splitDots_cons_nondot hc h, List.count_cons_of_ne (Ne.symm hc)]
        simp only [List.length_cons]
        omega

theorem spkParse_none_of_len {ns : Nat} {s : String}
    (h : (splitDots s.data).length ≠ 4) : spkParse ns s = none := by
  unfold spkParse
  rcases h0 : splitDots s.data with _ | ⟨a, _ | ⟨b, _ | ⟨d, _ | ⟨e, _ | ⟨f, l5⟩⟩⟩⟩⟩
  · rfl
  · rfl
  · rfl
  · rfl
  · rw [h0] at h; simp at h
  · rfl

theorem splitDots_flip : ∀ (pre : List Char) (c c2 : Char) (suf : List Char),
    c ≠ '.' → c2 ≠ '.' →
    ∃ ps1 dpre dsuf ps2,
      splitDots (pre ++ c :: suf) = ps1 ++ (dpre ++ c :: dsuf) :: ps2 ∧
      splitDots (pre ++ c2 :: suf) = ps1 ++ (dpre ++ c2 :: dsuf) :: ps2 := by
  intro pre
  induction pre with
  | nil =>
    intro c c2 suf hc hc2
    cases h : splitDots suf with
    | nil => exact absurd h (splitDots_ne_nil suf)
    | cons hd r =>
      refine ⟨[], [], hd, r, ?_, ?_⟩
      · simpa using splitDots_cons_nondot hc h
      · simpa using splitDots_cons_nondot hc2 h
  | cons a pre2 ih =>
    intro c c2 suf hc hc2
    obtain ⟨ps1, dpre, dsuf, ps2, h1, h2⟩ := ih c c2 suf hc hc2
    by_cases ha : a = '.'
    · subst ha
      refine ⟨[] :: ps1, dpre, dsuf, ps2, ?_, ?_⟩
      · show splitDots ('.' :: (pre2 ++ c :: suf)) = _
        rw [splitDots_cons_dot, h1]
        simp
      · show splitDots ('.' :: (pre2 ++ c2 :: suf)) = _
        rw [splitDots_cons_dot, h2]
        simp
    · cases ps1 with
      | nil =>
        simp only [List.nil_append] at h1 h2
        refine ⟨[], a :: dpre, dsuf, ps2, ?_, ?_⟩
        · show splitDots (a :: (pre2 ++ c :: suf)) = _
          rw [splitDots_cons_nondot ha h1]
          simp
        · show splitDots (a :: (pre2 ++ c2 :: suf)) = _
          rw [splitDots_cons_nondot ha h2]
          simp
      | cons p ps1t =>
        simp only [List.cons_append] at h1 h2
        refine ⟨(a :: p) :: ps1t, dpre, dsuf, ps2, ?_, ?_⟩
        · show splitDots (a :: (pre2 ++ c :: suf)) = _
          rw [splitDots_cons_nondot ha h1]
          simp
        · show splitDots (a :: (pre2 ++ c2 :: suf)) = _
          rw [splitDots_cons_nondot ha h2]
          simp

theorem senderKey_tamper_spk_auth {c : Crypter} {sender kp : KeyPair} {cek recPub : Bytes}
    {rr : RecipientRand} {s : String} {sp2 : SPK}
    (hparse : spkParse c.nonceSize s = some sp2)
    (hivl : sp2.iv.length = c.nonceSize)
    (hne : sp2.tag ≠ macBytes (dh kp.priv sp2.epk) sp2.iv [] sp2.ct) :
    decryptSenderKey c kp
        (setRecipientField (mkRecipient c sender cek (recPub, rr)) WireField.spk s) =
      .error (.err (authFailMsg senderStage)) := by
  simp only [decryptSenderKey, setRecipientField, hparse]
  rw [chachaOpen_authFail hivl hne]

theorem decrypt_tamper_kid {alg : String} {c : Crypter} {sender : KeyPair} {pt : Bytes}
    {recs : List KeyPair} {rnd : EncRand}
    (hnew : New alg = .ok c) (hsend : ValidKeyPair sender)
    (hrecs : ∀ k ∈ recs, ValidKeyPair k)
    (hnodup : (recs.map (fun k => k.pub)).Nodup)
    (hrnd : ValidEncRand c.nonceSize recs.length rnd)
    (i : Nat) (hi : i < recs.length) (hir : i < rnd.recs.length)
    (s : String) (hs : s ≠ kidOf (recs.get ⟨i, hi⟩).pub) :
    decrypt c (tamper (envOf c pt sender (recs.map (fun k => k.pub)) rnd) i
        WireField.kid s) (recs.get ⟨i, hi⟩) = .err rnfMsg := by
  have hkv : ValidKeyPair (recs.get ⟨i, hi⟩) := hrecs _ (recs.get_mem i hi)
  have him : i < (recs.map (fun k => k.pub)).length := by simpa using hi
  have hmapget : (recs.map (fun k => k.pub)).get ⟨i, him⟩ = (recs.get ⟨i, hi⟩).pub := by
    simp [List.get_map]
  have hrecB : ∀ k ∈ recs.map (fun k => k.pub), IsBytes k := by
    intro k hk
    obtain ⟨kp2, hkpmem, hkp⟩ := List.mem_map.mp hk
    rw [← hkp]
    exact (hrecs kp2 hkpmem).pubBytes
  have hget? := @zip_map_get? c sender rnd.cek (recs.map (fun k => k.pub)) rnd.recs i him hir
  rw [hmapget] at hget?
  have htamper : tamper (envOf c pt sender (recs.map (fun k => k.pub)) rnd) i
      WireField.kid s =
      { envOf c pt sender (recs.map (fun k => k.pub)) rnd with
        recipients := ((recs.map (fun k => k.pub)).zip rnd.recs).map
            (mkRecipient c sender rnd.cek) |>.set i
          (setRecipientField (mkRecipient c sender rnd.cek
            ((recs.get ⟨i, hi⟩).pub, rnd.recs.get ⟨i, hir⟩)) WireField.kid s) } := by
    simp only [tamper, envOf] at hget? ⊢
    rw [hget?]
  rw [htamper]
  have hfind : findRecipient
      { envOf c pt sender (recs.map (fun k => k.pub)) rnd with
        recipients := ((recs.map (fun k => k.pub)).zip rnd.recs).map
            (mkRecipient c sender rnd.cek) |>.set i
          (setRecipientField (mkRecipient c sender rnd.cek
            ((recs.get ⟨i, hi⟩).pub, rnd.recs.get ⟨i, hir⟩)) WireField.kid s) }
      (recs.get ⟨i, hi⟩) = none := by
    unfold findRecipient
    rw [if_neg (by
      simp only [List.isEmpty_iff]
      intro hemp
      have := hkv.pubLen
      rw [hemp] at this
      simp at this)]
    have := @find_set_none c sender rnd.cek (recs.map (fun k => k.pub)) rnd.recs i him
      (by simpa [hrnd.2.2.2.2.1] using rfl) hrecB hnodup
      (setRecipientField (mkRecipient c sender rnd.cek
        ((recs.get ⟨i, hi⟩).pub, rnd.recs.get ⟨i, hir⟩)) WireField.kid s)
      (by rw [hmapget]; exact hs)
    rw [hmapget] at this
    exact this
  simp only [decrypt, hfind]

theorem str_ext {a b : String} (h : a.data = b.data) : a = b := by
  have ha : a = ⟨a.data⟩ := rfl
  have hb : b = ⟨b.data⟩ := rfl
  rw [ha, hb, h]

/-- The hidden-sender sub-envelope a recipient block carries, as built by
`Encrypt` (spec section 4, Encrypt step 3d). -/
def spkOf (sender : KeyPair) (recPub : Bytes) (rr : RecipientRand) : SPK :=
  { epk := pubOf rr.ephPriv, iv := rr.spkNonce,
    tag := sealTag (dh rr.ephPriv recPub) rr.spkNonce [] sender.pub,
    ct := sealCT (dh rr.ephPriv recPub) rr.spkNonce sender.pub }

theorem mkRecipient_spk (c : Crypter) (sender : KeyPair) (cek recPub : Bytes)
    (rr : RecipientRand) :
    (mkRecipient c sender cek (recPub, rr)).header.spk =
      spkEncode (spkOf sender recPub rr) := rfl

theorem senderKey_spk_flip {c : Crypter} {sender kp : KeyPair} {cek recPub : Bytes}
    {rr : RecipientRand} {s2 : String}
    (hrr : ValidRecRand c.nonceSize rr) (hk : ValidKeyPair kp)
    (hpub : kp.pub = recPub)
    (hflip : OneFlip (mkRecipient c sender cek (recPub, rr)).header.spk s2) :
    decryptSenderKey c kp
        (setRecipientField (mkRecipient c sender cek (recPub, rr)) WireField.spk s2) =
      .error (.err (senderStage ++ ": bad SPK format")) ∨
    decryptSenderKey c kp
        (setRecipientField (mkRecipient c sender cek (recPub, rr)) WireField.spk s2) =
      .error (.err (authFailMsg senderStage)) := by
  obtain ⟨hel, heb, hsl, hsb, hwl, hwb, hab⟩ := hrr
  have hEmpty : IsBytes ([] : Bytes) := by intro b hb; simp at hb
  have hkey : dh kp.priv ((spkOf sender recPub rr).epk) = dh rr.ephPriv recPub := by
    show dh kp.priv (pubOf rr.ephPriv) = dh rr.ephPriv recPub
    rw [← dh_comm rr.ephPriv kp.priv, ← hk.2.2, hpub]
  have horigtag : (spkOf sender recPub rr).tag =
      macBytes (dh rr.ephPriv recPub) rr.spkNonce [] ((spkOf sender recPub rr).ct) := rfl
  cases hp : spkParse c.nonceSize s2 with
  | none => exact Or.inl (senderKey_tamper_spk hp)
  | some sp2 =>
    refine Or.inr ?_
    obtain ⟨hs2, hbe2, hbi2, hbt2, hbc2, hel2, hil2⟩ := spkParse_strict hp
    rw [mkRecipient_spk, hs2] at hflip
    obtain ⟨pre, ch, ch2, suf, hchne, hd1, hd2⟩ := hflip
    have hdot1 : (spkEncode (spkOf sender recPub rr)).data.count '.' = 3 := by
      have h4 := splitDots_count (spkEncode (spkOf sender recPub rr)).data
      rw [splitDots_spkEncode] at h4
      simp at h4
      omega
    have hdot2 : (spkEncode sp2).data.count '.' = 3 := by
      have h4 := splitDots_count (spkEncode sp2).data
      rw [splitDots_spkEncode] at h4
      simp at h4
      omega
    by_cases hch : ch = '.'
    · exfalso
      subst hch
      have hc2ne : ch2 ≠ '.' := fun hh => hchne hh.symm
      rw [hd1] at hdot1
      rw [hd2] at hdot2
      rw [List.count_append, List.count_cons_self] at hdot1
      rw [List.count_append, List.count_cons_of_ne (Ne.symm hc2ne)] at hdot2
      omega
    · by_cases hch2 : ch2 = '.'
      · exfalso
        subst hch2
        rw [hd1] at hdot1
        rw [hd2] at hdot2
        rw [List.count_append, List.count_cons_of_ne (Ne.symm hch)] at hdot1
        rw [List.count_append, List.count_cons_self] at hdot2
        omega
      · obtain ⟨ps1, dpre, dsuf, ps2pp, hq1, hq2⟩ := splitDots_flip pre ch ch2 suf hch hch2
        rw [← hd1, splitDots_spkEncode] at hq1
        rw [← hd2, splitDots_spkEncode] at hq2
        rcases ps1 with _ | ⟨a1, _ | ⟨a2, _ | ⟨a3, _ | ⟨a4, ps1t⟩⟩⟩⟩
        · -- ephemeral key component flipped
          simp only [List.nil_append, List.cons.injEq] at hq1
          obtain ⟨hq1a, hq1b⟩ := hq1
          rw [← hq1b] at hq2
          simp only [List.nil_append, List.cons.injEq, and_true] at hq2
          obtain ⟨hq2a, hq2b, hq2c, hq2d⟩ := hq2
          have hiv : sp2.iv = (spkOf sender recPub rr).iv :=
            b64encodeStr_inj hbi2 hsb (str_ext hq2b)
          have htag : sp2.tag = (spkOf sender recPub rr).tag :=
            b64encodeStr_inj hbt2 (sealTag_isBytes _ _ _ _) (str_ext hq2c)
          have hct : sp2.ct = (spkOf sender recPub rr).ct :=
            b64encodeStr_inj hbc2 (sealCT_isBytes _ _ _) (str_ext hq2d)
          have hepkne : sp2.epk ≠ (spkOf sender recPub rr).epk := by
            intro heq
            have hFE : (b64encodeStr sp2.epk).data =
                (b64encodeStr ((spkOf sender recPub rr).epk)).data := by rw [heq]
            rw [hq2a, hq1a] at hFE
            have h5 := List.append_cancel_left hFE
            exact hchne (((List.cons.injEq ..) ▸ h5).1).symm
          refine senderKey_tamper_spk_auth hp hil2 ?_
          rw [htag, hiv, hct]
          intro heq
          rw [horigtag] at heq
          have hinj := macBytes_inj (dh_isBytes _ _) hsb hEmpty (sealCT_isBytes _ _ _)
            (dh_isBytes _ _) hsb hEmpty (sealCT_isBytes _ _ _) heq
          have hk1 : dh kp.priv ((spkOf sender recPub rr).epk) = dh kp.priv sp2.epk := by
            rw [hkey]
            exact hinj.1
          have hlen : ((spkOf sender recPub rr).epk).length = sp2.epk.length := by
            show (pubOf rr.ephPriv).length = sp2.epk.length
            unfold pubOf
            rw [hel, hel2]
          have hge : kp.priv.length ≥ ((spkOf sender recPub rr).epk).length := by
            show kp.priv.length ≥ (pubOf rr.ephPriv).length
            unfold pubOf
            rw [hk.1, hel]
          have := dh_cancel_left hlen heb hbe2 hk1 hge
          exact hepkne this.symm
        · -- sub-envelope nonce component flipped
          simp only [List.cons_append, List.nil_append, List.cons.injEq] at hq1
          obtain ⟨hq1a, hq1b, hq1c⟩ := hq1
          rw [← hq1a, ← hq1c] at hq2
          simp only [List.cons_append, List.nil_append, List.cons.injEq, and_true] at hq2
          obtain ⟨hq2a, hq2b, hq2c, hq2d⟩ := hq2
          have hepk : sp2.epk = (spkOf sender recPub rr).epk :=
            b64encodeStr_inj hbe2 heb (str_ext hq2a)
          have htag : sp2.tag = (spkOf sender recPub rr).tag :=
            b64encodeStr_inj hbt2 (sealTag_isBytes _ _ _ _) (str_ext hq2c)
          have hct : sp2.ct = (spkOf sender recPub rr).ct :=
            b64encodeStr_inj hbc2 (sealCT_isBytes _ _ _) (str_ext hq2d)
          have hivne : sp2.iv ≠ (spkOf sender recPub rr).iv := by
            intro heq
            have hFE : (b64encodeStr sp2.iv).data =
                (b64encodeStr ((spkOf sender recPub rr).iv)).data := by rw [heq]
            rw [hq2b, hq1b] at hFE
            have h5 := List.append_cancel_left hFE
            exact hchne (((List.cons.injEq ..) ▸ h5).1).symm
          refine senderKey_tamper_spk_auth hp hil2 ?_
          rw [htag, hct, hepk, hkey]
          intro heq
          rw [horigtag] at heq
          have hinj := macBytes_inj (dh_isBytes _ _) hsb hEmpty (sealCT_isBytes _ _ _)
            (dh_isBytes _ _) hbi2 hEmpty (sealCT_isBytes _ _ _) heq
          exact hivne hinj.2.1.symm
        · -- sub-envelope tag component flipped
          simp only [List.cons_append, List.nil_append, List.cons.injEq] at hq1
          obtain ⟨hq1a, hq1b, hq1c, hq1d⟩ := hq1
          rw [← hq1a, ← hq1b, ← hq1d] at hq2
          simp only [List.cons_append, List.nil_append, List.cons.injEq, and_true] at hq2
          obtain ⟨hq2a, hq2b, hq2c, hq2d⟩ := hq2
          have hepk : sp2.epk = (spkOf sender recPub rr).epk :=
            b64encodeStr_inj hbe2 heb (str_ext hq2a)
          have hiv : sp2.iv = (spkOf sender recPub rr).iv :=
            b64encodeStr_inj hbi2 hsb (str_ext hq2b)
          have hct : sp2.ct = (spkOf sender recPub rr).ct :=
            b64encodeStr_inj hbc2 (sealCT_isBytes _ _ _) (str_ext hq2d)
          have htagne : sp2.tag ≠ (spkOf sender recPub rr).tag := by
            intro heq
            have hFE : (b64encodeStr sp2.tag).data =
                (b64encodeStr ((spkOf sender recPub rr).tag)).data := by rw [heq]
            rw [hq2c, hq1c] at hFE
            have h5 := List.append_cancel_left hFE
            exact hchne (((List.cons.injEq ..) ▸ h5).1).symm
          refine senderKey_tamper_spk_auth hp hil2 ?_
          rw [hiv, hct, hepk, hkey]
          intro heq
          exact htagne (heq.trans horigtag.symm)
        · -- sender-ciphertext component flipped
          simp only [List.cons_append, List.nil_append, List.cons.injEq] at hq1
          obtain ⟨hq1a, hq1b, hq1c, hq1d, hq1e⟩ := hq1
          rw [← hq1a, ← hq1b, ← hq1c, ← hq1e] at hq2
          simp only [List.cons_append, List.nil_append, List.cons.injEq, and_true] at hq2
          obtain ⟨hq2a, hq2b, hq2c, hq2d⟩ := hq2
          have hepk : sp2.epk = (spkOf sender recPub rr).epk :=
            b64encodeStr_inj hbe2 heb (str_ext hq2a)
          have hiv : sp2.iv = (spkOf sender recPub rr).iv :=
            b64encodeStr_inj hbi2 hsb (str_ext hq2b)
          have htag : sp2.tag = (spkOf sender recPub rr).tag :=
            b64encodeStr_inj hbt2 (sealTag_isBytes _ _ _ _) (str_ext hq2c)
          have hctne : sp2.ct ≠ (spkOf sender recPub rr).ct := by
            intro heq
            have hFE : (b64encodeStr sp2.ct).data =
                (b64encodeStr ((spkOf sender recPub rr).ct)).data := by rw [heq]
            rw [hq2d, hq1d] at hFE
            have h5 := List.append_cancel_left hFE
            exact hchne (((List.cons.injEq ..) ▸ h5).1).symm
          refine senderKey_tamper_spk_auth hp hil2 ?_
          rw [htag, hiv, hepk, hkey]
          intro heq
          rw [horigtag] at heq
          have hinj := macBytes_inj (dh_isBytes _ _) hsb hEmpty (sealCT_isBytes _ _ _)
            (dh_isBytes _ _) hsb hEmpty hbc2 heq
          exact hctne hinj.2.2.2.symm
        · -- five or more components: impossible for two four-part strings
          exfalso
          have hL := congrArg List.length hq1
          simp [List.length_append] at hL

theorem listPrefix_append : ∀ (a b : List Char), a.isPrefixOf (a ++ b) = true := by
  intro a b
  induction a with
  | nil => simp [List.isPrefixOf]
  | cons x xs ih => simp [List.isPrefixOf, ih]

theorem str_append_assoc (a b c : String) : a ++ b ++ c = a ++ (b ++ c) := by
  apply str_ext
  show (a.data ++ b.data) ++ c.data = a.data ++ (b.data ++ c.data)
  exact List.append_assoc _ _ _

theorem stage_decode_msg_eq (k : Nat) :
    msgStage ++ ": " ++ ("illegal base64 data at input byte " ++ toString k) =
      (msgStage ++ ": illegal base64 data at input byte ") ++ toString k := by
  rw [← str_append_assoc]
  have h : msgStage ++ ": " ++ "illegal base64 data at input byte " =
      msgStage ++ ": illegal base64 data at input byte " := by decide
  rw [h]

theorem stage_decode_shared_eq (k : Nat) :
    sharedStage ++ ": " ++ ("illegal base64 data at input byte " ++ toString k) =
      (sharedStage ++ ": illegal base64 data at input byte ") ++ toString k := by
  rw [← str_append_assoc]
  have h : sharedStage ++ ": " ++ "illegal base64 data at input byte " =
      sharedStage ++ ": illegal base64 data at input byte " := by decide
  rw [h]

theorem isDecodeOrAuthMsg_msg (k : Nat) :
    isDecodeOrAuthMsg
      (msgStage ++ ": " ++ ("illegal base64 data at input byte " ++ toString k)) = true := by
  rw [stage_decode_msg_eq k]
  unfold isDecodeOrAuthMsg
  have hd : ((msgStage ++ ": illegal base64 data at input byte ") ++ toString k).data =
      (msgStage ++ ": illegal base64 data at input byte ").data ++ (toString k).data := rfl
  rw [hd, listPrefix_append]
  rfl

theorem isDecodeOrAuthMsg_shared (k : Nat) :
    isDecodeOrAuthMsg
      (sharedStage ++ ": " ++ ("illegal base64 data at input byte " ++ toString k)) = true := by
  rw [stage_decode_shared_eq k]
  unfold isDecodeOrAuthMsg
  have hd : ((sharedStage ++ ": illegal base64 data at input byte ") ++ toString k).data =
      (sharedStage ++ ": illegal base64 data at input byte ").data ++ (toString k).data := rfl
  rw [hd, listPrefix_append]
  rfl

theorem isDecodeOrAuthMsg_auth_msg : isDecodeOrAuthMsg (authFailMsg msgStage) = true := by
  decide

theorem isDecodeOrAuthMsg_auth_sender :
    isDecodeOrAuthMsg (authFailMsg senderStage) = true := by decide

theorem isDecodeOrAuthMsg_auth_shared :
    isDecodeOrAuthMsg (authFailMsg sharedStage) = true := by decide

theorem isDecodeOrAuthMsg_spkFormat :
    isDecodeOrAuthMsg (senderStage ++ ": bad SPK format") = true := by decide

theorem isDecodeOrAuthMsg_badNonceSize :
    isDecodeOrAuthMsg (sharedStage ++ ": bad nonce size") = true := by decide

/-- C6 (amended): for every wire field of a well-formed `Encrypt` envelope
— content `ciphertext`/`tag`/`iv`, recipient `encrypted_key`, and every
recipient header field (`apu`, `iv`, `tag`, `kid`, `spk`) — replacing the
field either by a single-byte flip or by a different same-length value that
is valid base64 makes `Decrypt` fail: for every field except `kid` the
failure is a decode or authentication error of the implementation's error
taxonomy, while a changed `kid` fails with the recipient-not-found error;
`Decrypt` never silently returns plaintext from a tampered envelope. -/
theorem C6_tamper_fails (alg : String) (c : Crypter) (hnew : New alg = .ok c)
    (sender : KeyPair) (hsend : ValidKeyPair sender) (pt : Bytes)
    (recs : List KeyPair) (hrecs : ∀ k ∈ recs, ValidKeyPair k)
    (hnodup : (recs.map (fun k => k.pub)).Nodup)
    (rnd : EncRand) (hrnd : ValidEncRand c.nonceSize recs.length rnd)
    (i : Nat) (hi : i < recs.length) (hir : i < rnd.recs.length)
    (f : WireField) (s2 : String)
    (hchange :
      OneFlip (getField (envOf c pt sender (recs.map (fun k => k.pub)) rnd) i f) s2 ∨
      (s2.length =
          (getField (envOf c pt sender (recs.map (fun k => k.pub)) rnd) i f).length ∧
        ∃ b, b64decode s2 = .ok b))
    (hne : s2 ≠ getField (envOf c pt sender (recs.map (fun k => k.pub)) rnd) i f) :
    (f = WireField.kid →
      decrypt c (tamper (envOf c pt sender (recs.map (fun k => k.pub)) rnd) i f s2)
        (recs.get ⟨i, hi⟩) = .err rnfMsg) ∧
    (f ≠ WireField.kid →
      ∃ m, decrypt c (tamper (envOf c pt sender (recs.map (fun k => k.pub)) rnd) i f s2)
          (recs.get ⟨i, hi⟩) = .err m ∧ isDecodeOrAuthMsg m = true) := by
  have hkv : ValidKeyPair (recs.get ⟨i, hi⟩) := hrecs _ (recs.get_mem i hi)
  have hrrv : ValidRecRand c.nonceSize (rnd.recs.get ⟨i, hir⟩) :=
    hrnd.2.2.2.2.2 _ (rnd.recs.get_mem i hir)
  have him : i < (recs.map (fun k => k.pub)).length := by simpa using hi
  have hmapget : (recs.map (fun k => k.pub)).get ⟨i, him⟩ = (recs.get ⟨i, hi⟩).pub := by
    simp [List.get_map]
  have hget? := @zip_map_get? c sender rnd.cek (recs.map (fun k => k.pub)) rnd.recs i him hir
  rw [hmapget] at hget?
  have hlen : s2.length =
      (getField (envOf c pt sender (recs.map (fun k => k.pub)) rnd) i f).length := by
    rcases hchange with h | h
    · exact (OneFlip_length h).symm
    · exact h.1
  have hivB : IsBytes rnd.iv := hrnd.2.2.2.1
  have hivl : rnd.iv.length = c.nonceSize := hrnd.2.2.1
  have hcekB : IsBytes rnd.cek := hrnd.2.1
  have hsk : decryptSenderKey c (recs.get ⟨i, hi⟩)
      (mkRecipient c sender rnd.cek
        ((recs.get ⟨i, hi⟩).pub, rnd.recs.get ⟨i, hir⟩)) = .ok sender.pub :=
    decryptSenderKey_mk hrrv hsend hkv rfl
  cases f with
  | ciphertext =>
    refine ⟨fun h => WireField.noConfusion h, fun _ => ?_⟩
    have horig : getField (envOf c pt sender (recs.map (fun k => k.pub)) rnd) i
        WireField.ciphertext = b64encodeStr (sealCT rnd.cek rnd.iv pt) := rfl
    rw [decrypt_tamper_content_eq hnew hsend hrecs hrnd i hi WireField.ciphertext
      (by simp) s2]
    cases hdec : b64decode s2 with
    | error m =>
      obtain ⟨k, hk⟩ := b64decode_error_shape hdec
      refine ⟨msgStage ++ ": " ++ m, payload_tamper_decodeErr hivB (by simp) hdec, ?_⟩
      rw [hk]
      exact isDecodeOrAuthMsg_msg k
    | ok b =>
      have hbne : b ≠ sealCT rnd.cek rnd.iv pt := by
        intro heq
        apply hne
        rw [(b64decode_strict hdec).1, heq, horig]
      exact ⟨authFailMsg msgStage, payload_tamper_ct_auth hivl hivB hcekB hdec hbne,
        isDecodeOrAuthMsg_auth_msg⟩
  | tag =>
    refine ⟨fun h => WireField.noConfusion h, fun _ => ?_⟩
    have horig : getField (envOf c pt sender (recs.map (fun k => k.pub)) rnd) i
        WireField.tag =
        b64encodeStr (sealTag rnd.cek rnd.iv (strToBytes (protectedOf c.alg)) pt) := rfl
    rw [decrypt_tamper_content_eq hnew hsend hrecs hrnd i hi WireField.tag (by simp) s2]
    cases hdec : b64decode s2 with
    | error m =>
      obtain ⟨k, hk⟩ := b64decode_error_shape hdec
      refine ⟨msgStage ++ ": " ++ m, payload_tamper_decodeErr hivB (by simp) hdec, ?_⟩
      rw [hk]
      exact isDecodeOrAuthMsg_msg k
    | ok b =>
      have hbne : b ≠ sealTag rnd.cek rnd.iv (strToBytes (protectedOf c.alg)) pt := by
        intro heq
        apply hne
        rw [(b64decode_strict hdec).1, heq, horig]
      exact ⟨authFailMsg msgStage, payload_tamper_tag_auth hivl hivB hdec hbne,
        isDecodeOrAuthMsg_auth_msg⟩
  | iv =>
    refine ⟨fun h => WireField.noConfusion h, fun _ => ?_⟩
    have horig : getField (envOf c pt sender (recs.map (fun k => k.pub)) rnd) i
        WireField.iv = b64encodeStr rnd.iv := rfl
    rw [decrypt_tamper_content_eq hnew hsend hrecs hrnd i hi WireField.iv (by simp) s2]
    cases hdec : b64decode s2 with
    | error m =>
      obtain ⟨k, hk⟩ := b64decode_error_shape hdec
      refine ⟨msgStage ++ ": " ++ m, payload_tamper_decodeErr hivB (by simp) hdec, ?_⟩
      rw [hk]
      exact isDecodeOrAuthMsg_msg k
    | ok b =>
      have hbne : b ≠ rnd.iv := by
        intro heq
        apply hne
        rw [(b64decode_strict hdec).1, heq, horig]
      have hblen : b.length = c.nonceSize := by
        have h1 := b64decode_ok_length hdec
        have h2 : (getField (envOf c pt sender (recs.map (fun k => k.pub)) rnd) i
            WireField.iv).length = b64len rnd.iv.length := by
          rw [horig]
          exact b64encodeStr_length rnd.iv
        rw [h1, h2] at hlen
        rw [b64len_inj hlen, hivl]
      exact ⟨authFailMsg msgStage, payload_tamper_iv_auth hivB hcekB hdec hblen hbne,
        isDecodeOrAuthMsg_auth_msg⟩
  | encryptedKey =>
    refine ⟨fun h => WireField.noConfusion h, fun _ => ?_⟩
    rw [decrypt_tamper_rec_eq hnew hsend hrecs hnodup hrnd i hi hir WireField.encryptedKey
      (by simp) s2 rfl]
    have hskc : decryptSenderKey c (recs.get ⟨i, hi⟩)
        (setRecipientField (mkRecipient c sender rnd.cek
          ((recs.get ⟨i, hi⟩).pub, rnd.recs.get ⟨i, hir⟩)) WireField.encryptedKey s2) =
        .ok sender.pub := by
      rw [decryptSenderKey_congr rfl]
      exact hsk
    cases hdec : b64decode s2 with
    | error m =>
      obtain ⟨k, hk⟩ := b64decode_error_shape hdec
      have hshk := @sharedKey_tamper_decodeErr c sender (recs.get ⟨i, hi⟩) rnd.cek
        ((recs.get ⟨i, hi⟩).pub) (rnd.recs.get ⟨i, hir⟩) WireField.encryptedKey s2 m
        sender.pub hrrv (by simp) hdec
      refine ⟨sharedStage ++ ": " ++ m, by simp only [hskc, hshk], ?_⟩
      rw [hk]
      exact isDecodeOrAuthMsg_shared k
    | ok b =>
      have horig : getField (envOf c pt sender (recs.map (fun k => k.pub)) rnd) i
          WireField.encryptedKey =
          b64encodeStr (sealCT (kwKey (dh sender.priv (recs.get ⟨i, hi⟩).pub)
            (rnd.recs.get ⟨i, hir⟩).apu) (rnd.recs.get ⟨i, hir⟩).kwNonce rnd.cek) := by
        simp only [getField, envOf, hget?]
        rfl
      have hbne : b ≠ sealCT (kwKey (dh sender.priv (recs.get ⟨i, hi⟩).pub)
          (rnd.recs.get ⟨i, hir⟩).apu) (rnd.recs.get ⟨i, hir⟩).kwNonce rnd.cek := by
        intro heq
        apply hne
        rw [(b64decode_strict hdec).1, heq, horig]
      have hshk := sharedKey_tamper_ek_ok hrrv hsend hkv rfl hcekB hdec hbne
      exact ⟨authFailMsg sharedStage, by simp only [hskc, hshk],
        isDecodeOrAuthMsg_auth_shared⟩
  | apu =>
    refine ⟨fun h => WireField.noConfusion h, fun _ => ?_⟩
    rw [decrypt_tamper_rec_eq hnew hsend hrecs hnodup hrnd i hi hir WireField.apu
      (by simp) s2 rfl]
    have hskc : decryptSenderKey c (recs.get ⟨i, hi⟩)
        (setRecipientField (mkRecipient c sender rnd.cek
          ((recs.get ⟨i, hi⟩).pub, rnd.recs.get ⟨i, hir⟩)) WireField.apu s2) =
        .ok sender.pub := by
      rw [decryptSenderKey_congr rfl]
      exact hsk
    cases hdec : b64decode s2 with
    | error m =>
      obtain ⟨k, hk⟩ := b64decode_error_shape hdec
      have hshk := @sharedKey_tamper_decodeErr c sender (recs.get ⟨i, hi⟩) rnd.cek
        ((recs.get ⟨i, hi⟩).pub) (rnd.recs.get ⟨i, hir⟩) WireField.apu s2 m
        sender.pub hrrv (by simp) hdec
      refine ⟨sharedStage ++ ": " ++ m, by simp only [hskc, hshk], ?_⟩
      rw [hk]
      exact isDecodeOrAuthMsg_shared k
    | ok b =>
      have horig : getField (envOf c pt sender (recs.map (fun k => k.pub)) rnd) i
          WireField.apu = b64encodeStr (rnd.recs.get ⟨i, hir⟩).apu := by
        simp only [getField, envOf, hget?]
        rfl
      have hbne : b ≠ (rnd.recs.get ⟨i, hir⟩).apu := by
        intro heq
        apply hne
        rw [(b64decode_strict hdec).1, heq, horig]
      have hshk := sharedKey_tamper_apu_ok hrrv hsend hkv rfl hcekB hdec hbne
      exact ⟨authFailMsg sharedStage, by simp only [hskc, hshk],
        isDecodeOrAuthMsg_auth_shared⟩
  | recIV =>
    refine ⟨fun h => WireField.noConfusion h, fun _ => ?_⟩
    rw [decrypt_tamper_rec_eq hnew hsend hrecs hnodup hrnd i hi hir WireField.recIV
      (by simp) s2 rfl]
    have hskc : decryptSenderKey c (recs.get ⟨i, hi⟩)
        (setRecipientField (mkRecipient c sender rnd.cek
          ((recs.get ⟨i, hi⟩).pub, rnd.recs.get ⟨i, hir⟩)) WireField.recIV s2) =
        .ok sender.pub := by
      rw [decryptSenderKey_congr rfl]
      exact hsk
    cases hdec : b64decode s2 with
    | error m =>
      obtain ⟨k, hk⟩ := b64decode_error_shape hdec
      have hshk := @sharedKey_tamper_decodeErr c sender (recs.get ⟨i, hi⟩) rnd.cek
        ((recs.get ⟨i, hi⟩).pub) (rnd.recs.get ⟨i, hir⟩) WireField.recIV s2 m
        sender.pub hrrv (by simp) hdec
      refine ⟨sharedStage ++ ": " ++ m, by simp only [hskc, hshk], ?_⟩
      rw [hk]
      exact isDecodeOrAuthMsg_shared k
    | ok b =>
      by_cases hbl : b.length = c.nonceSize
      · have horig : getField (envOf c pt sender (recs.map (fun k => k.pub)) rnd) i
            WireField.recIV = b64encodeStr (rnd.recs.get ⟨i, hir⟩).kwNonce := by
          simp only [getField, envOf, hget?]
          rfl
        have hbne : b ≠ (rnd.recs.get ⟨i, hir⟩).kwNonce := by
          intro heq
          apply hne
          rw [(b64decode_strict hdec).1, heq, horig]
        have hshk := sharedKey_tamper_recIV_ok hrrv hsend hkv rfl hcekB hdec hbl hbne
        exact ⟨authFailMsg sharedStage, by simp only [hskc, hshk],
          isDecodeOrAuthMsg_auth_shared⟩
      · have hshk := @sharedKey_tamper_recIV_badsize c sender (recs.get ⟨i, hi⟩) rnd.cek
          ((recs.get ⟨i, hi⟩).pub) (rnd.recs.get ⟨i, hir⟩) s2 b sender.pub hrrv hdec hbl
        exact ⟨sharedStage ++ ": bad nonce size", by simp only [hskc, hshk],
          isDecodeOrAuthMsg_badNonceSize⟩
  | recTag =>
    refine ⟨fun h => WireField.noConfusion h, fun _ => ?_⟩
    rw [decrypt_tamper_rec_eq hnew hsend hrecs hnodup hrnd i hi hir WireField.recTag
      (by simp) s2 rfl]
    have hskc : decryptSenderKey c (recs.get ⟨i, hi⟩)
        (setRecipientField (mkRecipient c sender rnd.cek
          ((recs.get ⟨i, hi⟩).pub, rnd.recs.get ⟨i, hir⟩)) WireField.recTag s2) =
        .ok sender.pub := by
      rw [decryptSenderKey_congr rfl]
      exact hsk
    cases hdec : b64decode s2 with
    | error m =>
      obtain ⟨k, hk⟩ := b64decode_error_shape hdec
      have hshk := @sharedKey_tamper_decodeErr c sender (recs.get ⟨i, hi⟩) rnd.cek
        ((recs.get ⟨i, hi⟩).pub) (rnd.recs.get ⟨i, hir⟩) WireField.recTag s2 m
        sender.pub hrrv (by simp) hdec
      refine ⟨sharedStage ++ ": " ++ m, by simp only [hskc, hshk], ?_⟩
      rw [hk]
      exact isDecodeOrAuthMsg_shared k
    | ok b =>
      have horig : getField (envOf c pt sender (recs.map (fun k => k.pub)) rnd) i
          WireField.recTag =
          b64encodeStr (sealTag (kwKey (dh sender.priv (recs.get ⟨i, hi⟩).pub)
            (rnd.recs.get ⟨i, hir⟩).apu) (rnd.recs.get ⟨i, hir⟩).kwNonce [] rnd.cek) := by
        simp only [getField, envOf, hget?]
        rfl
      have hbne : b ≠ sealTag (kwKey (dh sender.priv (recs.get ⟨i, hi⟩).pub)
          (rnd.recs.get ⟨i, hir⟩).apu) (rnd.recs.get ⟨i, hir⟩).kwNonce [] rnd.cek := by
        intro heq
        apply hne
        rw [(b64decode_strict hdec).1, heq, horig]
      have hshk := sharedKey_tamper_recTag_ok hrrv hsend hkv rfl hcekB hdec hbne
      exact ⟨authFailMsg sharedStage, by simp only [hskc, hshk],
        isDecodeOrAuthMsg_auth_shared⟩
  | kid =>
    refine ⟨fun _ => ?_, fun hnk => absurd rfl hnk⟩
    have horig : getField (envOf c pt sender (recs.map (fun k => k.pub)) rnd) i
        WireField.kid = kidOf (recs.get ⟨i, hi⟩).pub := by
      simp only [getField, envOf, hget?]
      rfl
    exact decrypt_tamper_kid hnew hsend hrecs hnodup hrnd i hi hir s2
      (by rw [← horig]; exact hne)
  | spk =>
    refine ⟨fun h => WireField.noConfusion h, fun _ => ?_⟩
    have horig : getField (envOf c pt sender (recs.map (fun k => k.pub)) rnd) i
        WireField.spk = (mkRecipient c sender rnd.cek
          ((recs.get ⟨i, hi⟩).pub, rnd.recs.get ⟨i, hir⟩)).header.spk := by
      simp only [getField, envOf, hget?]
    rw [decrypt_tamper_rec_eq hnew hsend hrecs hnodup hrnd i hi hir WireField.spk
      (by simp) s2 rfl]
    rcases hchange with hflip | ⟨hlen2, b, hb⟩
    · rw [horig] at hflip
      rcases senderKey_spk_flip hrrv hkv rfl hflip with hsk2 | hsk2
      · exact ⟨senderStage ++ ": bad SPK format", by simp only [hsk2],
          isDecodeOrAuthMsg_spkFormat⟩
      · exact ⟨authFailMsg senderStage, by simp only [hsk2],
          isDecodeOrAuthMsg_auth_sender⟩
    · have hnodots : ∀ ch ∈ s2.data, ch ≠ '.' := by
        rw [(b64decode_strict hb).1]
        exact b64encodeStr_nodot b
      have hp : spkParse c.nonceSize s2 = none := by
        apply spkParse_none_of_len
        rw [splitDots_nodot hnodots]
        simp
      have hsk2 := @senderKey_tamper_spk c sender (recs.get ⟨i, hi⟩) rnd.cek
        ((recs.get ⟨i, hi⟩).pub) (rnd.recs.get ⟨i, hir⟩) s2 hp
      exact ⟨senderStage ++ ": bad SPK format", by simp only [hsk2],
        isDecodeOrAuthMsg_spkFormat⟩
set_option maxRecDepth 100000 in
set_option maxHeartbeats 4000000 in
/-- Counterexample to claim C6 as stated: flipping one byte of recipient 0's
`kid` in a valid envelope makes `Decrypt` fail with the recipient-not-found
error, which is neither a decode error nor an authentication error in the
implementation's error taxonomy. -/
theorem C6_tamper_counterexample :
    OneFlip (getField wEnv 0 WireField.kid)
      ⟨'B' :: (getField wEnv 0 WireField.kid).data.tail⟩ ∧
    decrypt wC (tamper wEnv 0 WireField.kid
        ⟨'B' :: (getField wEnv 0 WireField.kid).data.tail⟩) wRec1 =
      DecResult.err rnfMsg ∧
    isDecodeOrAuthMsg rnfMsg = false := by
  refine ⟨⟨[], 'A', 'B', (getField wEnv 0 WireField.kid).data.tail,
    by decide, by decide, rfl⟩, ?_, by decide⟩
  decide

set_option maxRecDepth 100000 in
theorem C6_tamper_fails_witness :
    ∃ m, decrypt wC (tamper wEnv 0 WireField.ciphertext (b64encodeStr [0, 0, 0, 0, 0]))
        ([wRec1, wRec2].get ⟨0, by decide⟩) = DecResult.err m ∧
      isDecodeOrAuthMsg m = true := by
  exact (C6_tamper_fails XC20P wC (by rfl) wSender (by decide) wPT [wRec1, wRec2]
    (by decide) (by decide) wRnd (by decide) 0 (by decide) (by decide)
    WireField.ciphertext (b64encodeStr [0, 0, 0, 0, 0])
    (Or.inr ⟨by decide, [0, 0, 0, 0, 0], by decide⟩) (by decide)).2
    (fun h => WireField.noConfusion h)
